import Mathlib

/-!
# Verification of the mantaray-js trie engine

A shallow embedding of the `mantaray-js` library (Swarm mantaray manifests):
the byte utilities (`src/utils.ts`), the v1.0 node implementation
(`src/index.ts`, classes `MantarayFork` / `MantarayNode`) and the legacy v0.2
node implementation (`src/node.ts`).

Modelling conventions:
* JS `Uint8Array` values are modelled as `List Nat` (byte values; Uint8Array
  writes wrap modulo 256, which is made explicit where it matters).
* `undefined` becomes `Option`, thrown JS errors become `Except MErr`.
* JS object field mutation becomes explicit state passing.
* `JSON.stringify` / `JSON.parse` live in the JS runtime (the spec treats
  JSON encoding of metadata as an external collaborator); they are modelled
  as an explicit codec parameter `JsonCodec`.
* `keccak256` comes from the external `js-sha3` package; the 31-byte version
  tags derived from it are modelled as opaque distinct 31-byte constants.
-/

namespace Mantaray

/-- Reduction of `Except` bind on a success value. -/
theorem bindOk {ε α β : Type _} (a : α) (f : α → Except ε β) :
    (Except.ok a >>= f : Except ε β) = f a := rfl

/-- Reduction of `Except` bind on an error value. -/
theorem bindErr {ε α β : Type _} (e : ε) (f : α → Except ε β) :
    (Except.error e >>= f : Except ε β) = Except.error e := rfl

/-- JS `Uint8Array` contents, one `Nat` per byte. -/
abbrev JBytes := List Nat

/-- JS `arr.slice(a, b)` on typed arrays: clamping, never out of bounds. -/
def jsSlice (l : JBytes) (a b : Nat) : JBytes := (l.drop a).take (b - a)

/-- JS `arr.slice(a)` (slice to the end of the array). -/
def jsSliceFrom (l : JBytes) (a : Nat) : JBytes := l.drop a

/-- `utils.null32Bytes`: the 32 zero bytes (`new Uint8Array(32)`). -/
def null32Bytes : JBytes := List.replicate 32 0

/-- `utils.equalBytes`: length check plus element-wise comparison. -/
def equalBytes (a b : JBytes) : Bool := a == b

/-- `utils.isPrefixedBy(element, p)` (source name `isPrefixedBy`): whether
`element` starts with the bytes of `p`.  The source loops `i` over `p` and
compares `element[i] !== p[i]`; an out-of-range read yields `undefined`
which never equals a number, so a too-short `element` fails the test. -/
def beginsWith (element p : JBytes) : Bool :=
  decide (p.length ≤ element.length) && (List.take p.length element == p)

/-- `utils.findIndexOfArray(element, searchFor)`: the first index of
`element` at which the byte array `searchFor` occurs, `-1` (here `none`)
when it occurs nowhere.  Note this is a *substring* search, not a prefix
test. -/
def findIndexOfArray (element searchFor : JBytes) : Option Nat :=
  (List.range (element.length + 1 - searchFor.length)).find?
    (fun i => List.take searchFor.length (element.drop i) == searchFor)

/-- `utils.common(a, b)`: the longest common leading byte run of `a` and `b`. -/
def commonBytes : JBytes → JBytes → JBytes
  | a :: as, b :: bs => if a = b then a :: commonBytes as bs else []
  | _, _ => []

/-- Element-wise part of `utils.encryptDecrypt`: starting from position
`i` of the remaining data, XOR each byte at absolute position `≥ start`
with `key[(pos - start) % key.length]`.  The source processes the data in
chunks of `key.length` bytes (`data[i0 + j] ^= key[j % key.length]` for a
chunk starting at `i0 = start + q * key.length`); since `j < key.length`
there, this is exactly the keystream below. -/
def xorFromAux (key : JBytes) (start : Nat) : Nat → JBytes → JBytes
  | _, [] => []
  | i, b :: rest =>
    (if i < start then b else b ^^^ key.getD ((i - start) % key.length) 0)
      :: xorFromAux key start (i + 1) rest

/-- `utils.encryptDecrypt(key, data, startIndex)` (with the default
`endIndex = data.length`): returns `data` unchanged when `key` is the 32
zero bytes, otherwise XORs every byte from `startIndex` on with the
repeating keystream `key`. -/
def encryptDecrypt (key data : JBytes) (startIndex : Nat) : JBytes :=
  if key = null32Bytes then data else xorFromAux key startIndex 0 data

/-! ### Properties of the XOR obfuscation -/

theorem xorFromAux_involutive (key : JBytes) (start : Nat) :
    ∀ (i : Nat) (data : JBytes),
      xorFromAux key start i (xorFromAux key start i data) = data := by
  intro i data
  induction data generalizing i with
  | nil => rfl
  | cons b rest ih =>
    simp only [xorFromAux]
    by_cases h : i < start
    · simp [h, ih]
    · simp only [if_neg h]
      rw [Nat.xor_assoc, Nat.xor_self, Nat.xor_zero]
      simp [ih]

theorem xorFromAux_length (key : JBytes) (start : Nat) :
    ∀ (i : Nat) (data : JBytes), (xorFromAux key start i data).length = data.length := by
  intro i data
  induction data generalizing i with
  | nil => rfl
  | cons b rest ih => simp [xorFromAux, ih]

theorem xorFromAux_take (key : JBytes) (start : Nat) :
    ∀ (i : Nat) (data : JBytes) (n : Nat), i + n ≤ start →
      (xorFromAux key start i data).take n = data.take n := by
  intro i data
  induction data generalizing i with
  | nil => intro n _; rfl
  | cons b rest ih =>
    intro n hn
    cases n with
    | zero => simp
    | succ m =>
      have hi : i < start := by omega
      simp only [xorFromAux, if_pos hi, List.take_succ_cons]
      rw [ih (i + 1) m (by omega)]

theorem encryptDecrypt_involutive (key data : JBytes) (start : Nat) :
    encryptDecrypt key (encryptDecrypt key data start) start = data := by
  unfold encryptDecrypt
  by_cases h : key = null32Bytes
  · simp [h]
  · simp [h, xorFromAux_involutive]

theorem encryptDecrypt_zero_key (data : JBytes) (start : Nat) :
    encryptDecrypt null32Bytes data start = data := by
  simp [encryptDecrypt]

theorem encryptDecrypt_length (key data : JBytes) (start : Nat) :
    (encryptDecrypt key data start).length = data.length := by
  unfold encryptDecrypt
  split
  · rfl
  · exact xorFromAux_length key start 0 data

theorem encryptDecrypt_take (key data : JBytes) (start n : Nat) (h : n ≤ start) :
    (encryptDecrypt key data start).take n = data.take n := by
  unfold encryptDecrypt
  split
  · rfl
  · exact xorFromAux_take key start 0 data n (by omega)

/-- **C9.** For every 32-byte key `k`, every buffer `b` and every start
offset, applying the XOR obfuscation `encryptDecrypt` twice with the same
key restores `b` exactly, and when `k` is the 32 zero bytes a single
application leaves `b` unchanged. -/
theorem encryptDecrypt_xor_symmetry (key data : JBytes) (start : Nat)
    (hkey : key.length = 32) :
    encryptDecrypt key (encryptDecrypt key data start) start = data ∧
      (key = List.replicate 32 0 → encryptDecrypt key data start = data) := by
  refine ⟨encryptDecrypt_involutive key data start, ?_⟩
  intro h
  rw [h]
  exact encryptDecrypt_zero_key data start

/-- Witness for C9 at a concrete key, buffer and offset. -/
theorem encryptDecrypt_xor_symmetry_witness :
    encryptDecrypt (List.replicate 31 0 ++ [5])
        (encryptDecrypt (List.replicate 31 0 ++ [5]) [10, 20, 30] 1) 1 = [10, 20, 30] ∧
      (List.replicate 31 0 ++ [5] = List.replicate 32 0 →
        encryptDecrypt (List.replicate 31 0 ++ [5]) [10, 20, 30] 1 = [10, 20, 30]) :=
  encryptDecrypt_xor_symmetry (List.replicate 31 0 ++ [5]) [10, 20, 30] 1 (by decide)

/-! ## Errors, metadata and the JSON codec -/

/-- The JS errors thrown by the library, collapsed to their kind. -/
inductive MErr : Type where
  | emptyPath
  | notFound
  | forksUndefined
  | undefinedFieldEntry
  | invalidReference
  | invalidObfuscationKey
  | noContentAddress
  | pfxTooLong
  | metadataOverflow
  | segSizeTooLarge
  | encEntryNoEntry
  | tooShort
  | badVersion
  | forkDataShort
  | badIndexBytes
  | forkIndexing
  | fuelOut
  | randomFnUndefined
  | setByteRange
  | badForkPfxLength
  | notImplemented
  | jsonParseError
  | typeTooBig
  | badContinuousFork
  deriving DecidableEq, Repr

/-- `MetadataMapping`: string keys to JSON values, here modelled with string
values (sufficient for every claim; the values are opaque to the trie). -/
abbrev MetaMap := List (String × String)

/-- `JSON.stringify` / `JSON.parse` of metadata mappings.  JSON encoding is
performed by the JS runtime and is out of scope for the library (the spec
treats it as an external collaborator), so it is modelled as an explicit
codec parameter: `enc` is `JSON.stringify` followed by UTF-8 encoding,
`dec` is UTF-8 decoding followed by `JSON.parse`, returning `none` where
`JSON.parse` would throw. -/
structure JsonCodec where
  enc : MetaMap → JBytes
  dec : JBytes → Option MetaMap

/-- Bytes whose characters `String.trimEnd` removes (ASCII whitespace; the
only padding byte the v1.0 format uses is 0x20). -/
def isWsByte (b : Nat) : Bool := b == 32 || b == 9 || b == 10 || b == 12 || b == 13

/-- Trailing-whitespace trimming of a byte string (`String.trimEnd`). -/
def trimEndBytes (data : JBytes) : JBytes := (data.reverse.dropWhile isWsByte).reverse

/-- `utils.serializeMedata`: JSON-encode a metadata mapping. -/
def serializeMedata (J : JsonCodec) (m : MetaMap) : JBytes := J.enc m

/-- `utils.deserializeMetadata`: decode, trim trailing whitespace,
JSON-parse; `none` on any failure. -/
def deserializeMetadata (J : JsonCodec) (data : JBytes) : Option MetaMap :=
  J.dec (trimEndBytes data)

/-- `utils.serializeMetadataInSegment`: space-padded JSON in a slot of
`segmentSize * 32` bytes; an all-space slot when the metadata is absent;
an error when the JSON does not fit in the slot. -/
def serializeMetadataInSegment (J : JsonCodec) (metadata : Option MetaMap)
    (segmentSize : Nat) : Except MErr JBytes :=
  match metadata with
  | none => .ok (List.replicate (segmentSize * 32) 32)
  | some m =>
    let jsonData := J.enc m
    if segmentSize * 32 < jsonData.length then .error .metadataOverflow
    else .ok (jsonData ++ List.replicate (segmentSize * 32 - jsonData.length) 32)

/-! ## The v1.0 node data model (`src/index.ts`, class `MantarayNode`)

A `MantarayFork` is a pair of a byte prefix and a child node; the fork map
(a JS object keyed by the first prefix byte) is an association list kept in
ascending key order, which is exactly the order in which JS enumerates
integer-like object keys. -/

/-- The scalar fields of a v1.0 `MantarayNode`. -/
structure NodeCore where
  obfuscationKey : JBytes
  hasEntry : Bool
  encEntry : Bool
  isEdge : Bool
  isContinuousNode : Bool
  contentAddress : Option JBytes
  entry : Option JBytes
  nodeMetadata : Option MetaMap
  forkMetadata : Option MetaMap
  forkMetadataSegmentSize : Nat
  deriving DecidableEq, Repr

mutual
inductive MantarayNode : Type where
  | mk (core : NodeCore) (forks : Forks) : MantarayNode
  deriving DecidableEq, Repr

/-- The `forks` field: `undefined` or a fork map. -/
inductive Forks : Type where
  | undef : Forks
  | defined (l : ForkList) : Forks
  deriving DecidableEq, Repr

/-- The fork map: a list of `(key, MantarayFork(prefix, childNode))`
entries in ascending key order. -/
inductive ForkList : Type where
  | nil : ForkList
  | cons (key : Nat) (pfx : JBytes) (child : MantarayNode) (rest : ForkList) : ForkList
  deriving DecidableEq, Repr
end

def MantarayNode.core : MantarayNode → NodeCore
  | .mk c _ => c

def MantarayNode.forks : MantarayNode → Forks
  | .mk _ f => f

def MantarayNode.withForks : MantarayNode → Forks → MantarayNode
  | .mk c _, f => .mk c f

def MantarayNode.mapCore : MantarayNode → (NodeCore → NodeCore) → MantarayNode
  | .mk c f, g => .mk (g c) f

/-- The field values installed by the `MantarayNode` constructor. -/
def freshCore : NodeCore :=
  { obfuscationKey := List.replicate 32 0
    hasEntry := false
    encEntry := false
    isEdge := false
    isContinuousNode := false
    contentAddress := none
    entry := none
    nodeMetadata := none
    forkMetadata := none
    forkMetadataSegmentSize := 0 }

/-- `new MantarayNode()` (v1.0). -/
def MantarayNode.fresh : MantarayNode := .mk freshCore (.undef)

/-- `utils.assertReference`: a reference is a `Uint8Array` of 32 or 64 bytes. -/
def assertReference (r : JBytes) : Except MErr Unit :=
  if r.length = 32 ∨ r.length = 64 then .ok () else .error .invalidReference

/-- `isDirty()`: dirty means no cached `contentAddress`. -/
def MantarayNode.isDirty (n : MantarayNode) : Bool := n.core.contentAddress.isNone

/-- `makeDirty()`. -/
def MantarayNode.makeDirty (n : MantarayNode) : MantarayNode :=
  n.mapCore fun c => { c with contentAddress := none }

/-- The `contentAddress` property setter. -/
def MantarayNode.setContentAddress (n : MantarayNode) (v : Option JBytes) :
    Except MErr MantarayNode :=
  match v with
  | none => .ok (n.mapCore fun c => { c with contentAddress := none })
  | some r => do
    assertReference r
    .ok (n.mapCore fun c => { c with contentAddress := some r })

/-- The `entry` property setter (`src/index.ts` lines 223-236): assigning
`undefined` only clears `hasEntry`; assigning a reference stores it, sets
`hasEntry`, turns `encEntry` on for a 64-byte reference (never off), and
marks the node dirty. -/
def MantarayNode.setEntry (n : MantarayNode) (v : Option JBytes) :
    Except MErr MantarayNode :=
  match v with
  | none => .ok (n.mapCore fun c => { c with hasEntry := false })
  | some e => do
    assertReference e
    .ok ((n.mapCore fun c =>
      { c with entry := some e, hasEntry := true,
               encEntry := if e.length = 64 then true else c.encEntry }).makeDirty)

/-- The `obfuscationKey` property setter. -/
def MantarayNode.setObfuscationKey (n : MantarayNode) (k : JBytes) :
    Except MErr MantarayNode :=
  if k.length = 32 then
    .ok ((n.mapCore fun c => { c with obfuscationKey := k }).makeDirty)
  else .error .invalidObfuscationKey

/-- The `nodeMetadata` property setter.  (`assertMetadataMapping` cannot
fail in the model: `MetaMap` is a string-keyed mapping by construction.) -/
def MantarayNode.setNodeMetadata (n : MantarayNode) (v : Option MetaMap) : MantarayNode :=
  match v with
  | none => n.mapCore fun c => { c with nodeMetadata := none }
  | some m => (n.mapCore fun c => { c with nodeMetadata := some m }).makeDirty

/-- The `forkMetadata` property setter, exactly as written in the source:
the `undefined` branch assigns `this._nodeMetadata = undefined` (not
`_forkMetadata`), and does not mark the node dirty. -/
def MantarayNode.setForkMetadata (n : MantarayNode) (v : Option MetaMap) : MantarayNode :=
  match v with
  | none => n.mapCore fun c => { c with nodeMetadata := none }
  | some m => (n.mapCore fun c => { c with forkMetadata := some m }).makeDirty

/-- The `forkMetadataSegmentSize` property setter. -/
def MantarayNode.setForkMetadataSegmentSize (n : MantarayNode) (v : Nat) :
    Except MErr MantarayNode :=
  if v > 31 then .error .segSizeTooLarge
  else .ok (n.mapCore fun c => { c with forkMetadataSegmentSize := v })

/-! ## C5: the entry-flag invariant under sequences of entry assignments -/

/-- A sequence of assignments to the `entry` property (`some r` assigns a
reference, `none` assigns `undefined`). -/
def applyEntryOps (n : MantarayNode) : List (Option JBytes) → Except MErr MantarayNode
  | [] => .ok n
  | op :: ops => do
    let n' ← n.setEntry op
    applyEntryOps n' ops

/-- An entry assignment that passes `assertReference` (or clears). -/
def isValidEntryOp : Option JBytes → Bool
  | none => true
  | some e => e.length == 32 || e.length == 64

/-- An assignment of a 64-byte (encrypted) reference. -/
def is64Op : Option JBytes → Bool
  | some e => e.length == 64
  | none => false

/-- No 64-byte entry assignment is ever followed by a 32-byte assignment
or by clearing the entry. -/
def noDowngrade : List (Option JBytes) → Bool
  | [] => true
  | op :: ops => if is64Op op then ops.all is64Op else noDowngrade ops

/-- The C5 state invariant of `(hasEntry, encEntry, entry)`. -/
def entryInv (n : MantarayNode) : Prop :=
  (n.core.encEntry = true →
      n.core.hasEntry = true ∧ ∃ e, n.core.entry = some e ∧ e.length = 64) ∧
    (n.core.encEntry = false → ∀ e, n.core.entry = some e → e.length = 32)

theorem setEntry_entryInv {n n' : MantarayNode} {op : Option JBytes}
    (hinv : entryInv n) (hval : isValidEntryOp op = true)
    (henc : n.core.encEntry = true → is64Op op = true)
    (hset : n.setEntry op = .ok n') : entryInv n' := by
  match op with
  | none =>
    have hencF : n.core.encEntry = false := by
      cases hE : n.core.encEntry with
      | false => rfl
      | true => exact absurd (henc hE) (by simp [is64Op])
    simp only [MantarayNode.setEntry, Except.ok.injEq] at hset
    subst hset
    cases n with
    | mk c f =>
      simp only [MantarayNode.core] at hencF
      refine ⟨?_, ?_⟩
      · intro h
        simp [MantarayNode.mapCore, MantarayNode.core, hencF] at h
      · intro _ e he
        simp only [MantarayNode.mapCore, MantarayNode.core] at he
        exact hinv.2 hencF e he
  | some e =>
    by_cases hlen : e.length = 32 ∨ e.length = 64
    · simp only [MantarayNode.setEntry, assertReference, if_pos hlen, bindOk,
        Except.ok.injEq] at hset
      by_cases h64 : e.length = 64
      · cases n with
        | mk c f =>
          subst hset
          constructor
          · intro _
            refine ⟨?_, e, ?_, h64⟩ <;>
              simp [MantarayNode.mapCore, MantarayNode.makeDirty, MantarayNode.core, h64]
          · intro habs
            simp [MantarayNode.mapCore, MantarayNode.makeDirty, MantarayNode.core,
              h64] at habs
      · have h32' : e.length = 32 := by omega
        have hencF : n.core.encEntry = false := by
          cases hE : n.core.encEntry with
          | false => rfl
          | true => exact absurd (henc hE) (by simp [is64Op, h32'])
        cases n with
        | mk c f =>
          subst hset
          simp only [MantarayNode.core] at hencF
          constructor
          · intro habs
            simp [MantarayNode.mapCore, MantarayNode.makeDirty, MantarayNode.core,
              h64, hencF] at habs
          · intro _ e' he'
            simp only [MantarayNode.mapCore, MantarayNode.makeDirty,
              MantarayNode.core, Option.some.injEq] at he'
            subst he'
            exact h32'
    · simp only [MantarayNode.setEntry, assertReference, if_neg hlen, bindErr] at hset
      exact Except.noConfusion hset

theorem applyEntryOps_entryInv :
    ∀ (ops : List (Option JBytes)) (n n' : MantarayNode), entryInv n →
      ops.all isValidEntryOp = true → noDowngrade ops = true →
      (n.core.encEntry = true → ops.all is64Op = true) →
      applyEntryOps n ops = .ok n' → entryInv n' := by
  intro ops
  induction ops with
  | nil =>
    intro n n' hinv _ _ _ h
    simp only [applyEntryOps, Except.ok.injEq] at h
    subst h; exact hinv
  | cons op ops ih =>
    intro n n' hinv hval hnd henc h
    simp only [applyEntryOps] at h
    cases hset : n.setEntry op with
    | error e =>
      rw [hset, bindErr] at h
      exact Except.noConfusion h
    | ok n₁ =>
      rw [hset, bindOk] at h
      simp only [List.all_cons, Bool.and_eq_true] at hval
      have henc1 : n.core.encEntry = true → is64Op op = true := by
        intro he
        have := henc he
        simp only [List.all_cons, Bool.and_eq_true] at this
        exact this.1
      have hinv1 : entryInv n₁ := setEntry_entryInv hinv hval.1 henc1 hset
      refine ih n₁ n' hinv1 hval.2 ?_ ?_ h
      · by_cases h64 : is64Op op = true
        · simp only [noDowngrade, h64, if_pos] at hnd
          -- all-64 tails trivially have no downgrade
          clear * - hnd
          induction ops with
          | nil => rfl
          | cons o os ih2 =>
            simp only [List.all_cons, Bool.and_eq_true] at hnd
            simp only [noDowngrade, hnd.1, if_pos]
            exact hnd.2
        · simpa [noDowngrade, h64] using hnd
      · intro henc1'
        by_cases h64 : is64Op op = true
        · simpa [noDowngrade, h64] using hnd
        · -- op is none or a 32-byte set, so encEntry is unchanged by the setter
          have hEq : n.core.encEntry = true := by
            match op, hval.1 with
            | none, _ =>
              simp only [MantarayNode.setEntry, Except.ok.injEq] at hset
              cases n with
              | mk c f =>
                subst hset
                simpa [MantarayNode.mapCore, MantarayNode.core] using henc1'
            | some e, hv =>
              have hlen : e.length = 32 ∨ e.length = 64 := by
                simpa only [isValidEntryOp, Bool.or_eq_true, beq_iff_eq] using hv
              have h32' : e.length = 32 := by
                rcases hlen with h' | h'
                · exact h'
                · exact absurd (by simp [is64Op, h']) h64
              simp only [MantarayNode.setEntry, assertReference, if_pos hlen, bindOk,
                Except.ok.injEq] at hset
              cases n with
              | mk c f =>
                subst hset
                simpa [MantarayNode.mapCore, MantarayNode.makeDirty, MantarayNode.core,
                  show ¬ e.length = 64 by omega] using henc1'
          exact absurd (henc1 hEq) h64

/-- **C5 (amended).** The claimed invariant `encEntry ⇒ hasEntry` together
with "entry length is 64 iff `encEntry`" holds after every sequence of
entry assignments on a fresh node *provided* no 64-byte entry is ever
replaced by a 32-byte entry or cleared; the unrestricted claim is refuted
by `c5_length_iff_encEntry_cex`. -/
theorem c5_entry_invariant (ops : List (Option JBytes)) (n' : MantarayNode)
    (hval : ops.all isValidEntryOp = true) (hnd : noDowngrade ops = true)
    (h : applyEntryOps MantarayNode.fresh ops = .ok n') :
    (n'.core.encEntry = true → n'.core.hasEntry = true) ∧
      ((n'.core.entry.getD []).length = 64 ↔ n'.core.encEntry = true) := by
  have hinv : entryInv n' := by
    refine applyEntryOps_entryInv ops MantarayNode.fresh n' ?_ hval hnd ?_ h
    · exact ⟨by intro h; simp [MantarayNode.fresh, MantarayNode.core, freshCore] at h,
        by intro _ e he; simp [MantarayNode.fresh, MantarayNode.core, freshCore] at he⟩
    · intro h; simp [MantarayNode.fresh, MantarayNode.core, freshCore] at h
  constructor
  · exact fun he => (hinv.1 he).1
  · constructor
    · intro hlen
      by_contra henc
      have hencF : n'.core.encEntry = false := by
        revert henc; cases n'.core.encEntry <;> simp
      cases he : n'.core.entry with
      | none => simp [he] at hlen
      | some e =>
        have := hinv.2 hencF e he
        simp [he, this] at hlen
    · intro he
      obtain ⟨_, e, hee, hl⟩ := hinv.1 he
      simp [hee, hl]

/-- The node reached by `entry := (64 bytes); entry := (32 bytes)` on a
fresh v1.0 node. -/
def c5CexNode : MantarayNode :=
  .mk { freshCore with
          entry := some (List.replicate 32 2), hasEntry := true, encEntry := true } (.undef)

/-- **C5 counterexample.** Assigning a 64-byte entry and then a 32-byte
entry is a sequence of public mutations after which `encEntry` is still
set although the stored entry has byte length 32: "length equals 64 iff
`encEntry`" is violated. -/
theorem c5_length_iff_encEntry_cex :
    applyEntryOps MantarayNode.fresh
        [some (List.replicate 64 1), some (List.replicate 32 2)] = .ok c5CexNode ∧
      ¬ (((c5CexNode.core.entry.getD []).length = 64) ↔ c5CexNode.core.encEntry = true) :=
  ⟨rfl, by decide⟩

/-! ## Navigation: `getForkAtPath` and `removePath` (v1.0, `src/index.ts`)

The JS fork-map lookup `this.forks[path[0]]` followed by the per-fork
checks is modelled as a single traversal of the association list (object
keys are unique, so the first match is the only match). -/

def ForkList.lookup : ForkList → Nat → Option (JBytes × MantarayNode)
  | .nil, _ => none
  | .cons k p c rest, key => if k = key then some (p, c) else ForkList.lookup rest key

mutual

/-- `MantarayNode.getForkAtPath` (v1.0): walk by the first byte, fail with
*not-found* when the key is missing or the path does not begin with the
fork's prefix (`isPrefixedBy`), return the fork on exact match, recurse on
a longer path. -/
def MantarayNode.getForkAtPath : MantarayNode → JBytes → Except MErr (JBytes × MantarayNode)
  | .mk _ forks, path =>
    if path = [] then .error .emptyPath
    else
      match forks with
      | .undef => .error .forksUndefined
      | .defined l => ForkList.getAtKey l (path.headD 0) path

/-- Lookup of `forks[key]` fused with the prefix check and recursion of
`getForkAtPath`. -/
def ForkList.getAtKey : ForkList → Nat → JBytes → Except MErr (JBytes × MantarayNode)
  | .nil, _, _ => .error .notFound
  | .cons k p c rest, key, path =>
    if k = key then
      if beginsWith path p then
        let restPath := path.drop p.length
        if restPath = [] then .ok (p, c) else MantarayNode.getForkAtPath c restPath
      else .error .notFound
    else ForkList.getAtKey rest key path

end

mutual

/-- `MantarayNode.removePath` (v1.0, `src/index.ts` lines 473-495): same
navigation as `getForkAtPath`; when the remainder after the fork's prefix
is empty, mark the *current* node dirty and delete the fork; otherwise
recurse into the child (without touching the current node's fields). -/
def MantarayNode.removePath : MantarayNode → JBytes → Except MErr MantarayNode
  | .mk core forks, path =>
    if path = [] then .error .emptyPath
    else
      match forks with
      | .undef => .error .forksUndefined
      | .defined l => do
        let (l', deleted) ← ForkList.removeAtKey l (path.headD 0) path
        if deleted then .ok (.mk { core with contentAddress := none } (.defined l'))
        else .ok (.mk core (.defined l'))

/-- Lookup of `forks[key]` fused with the prefix check, deletion and
recursion of `removePath`; the returned flag says whether the deletion
happened in this very fork map (in which case `removePath` dirties the
current node). -/
def ForkList.removeAtKey : ForkList → Nat → JBytes → Except MErr (ForkList × Bool)
  | .nil, _, _ => .error .notFound
  | .cons k p c rest, key, path =>
    if k = key then
      if beginsWith path p then
        let restPath := path.drop p.length
        if restPath = [] then .ok (rest, true)
        else do
          let c' ← MantarayNode.removePath c restPath
          .ok (.cons k p c' rest, false)
      else .error .notFound
    else do
      let (rest', deleted) ← ForkList.removeAtKey rest key path
      .ok (.cons k p c rest', deleted)

end

/-! ## The v0.2 node (`src/node.ts`) : data model and navigation -/

/-- The scalar fields of a v0.2 `MantarayNode` (`src/node.ts`).  The JS
field `type` is called `typ` here (`type` is reserved in Lean). -/
structure Node02Core where
  typ : Option Nat
  obfuscationKey : Option JBytes
  contentAddress : Option JBytes
  entry : Option JBytes
  metadata : Option MetaMap
  deriving DecidableEq, Repr

mutual
inductive Node02 : Type where
  | mk (core : Node02Core) (forks : Forks02) : Node02
  deriving DecidableEq, Repr

inductive Forks02 : Type where
  | undef : Forks02
  | defined (l : ForkList02) : Forks02
  deriving DecidableEq, Repr

inductive ForkList02 : Type where
  | nil : ForkList02
  | cons (key : Nat) (pfx : JBytes) (child : Node02) (rest : ForkList02) : ForkList02
  deriving DecidableEq, Repr
end

def Node02.core : Node02 → Node02Core
  | .mk c _ => c

def Node02.forks : Node02 → Forks02
  | .mk _ f => f

/-- `new MantarayNode()` (v0.2): every field starts `undefined`. -/
def Node02.fresh : Node02 :=
  .mk { typ := none, obfuscationKey := none, contentAddress := none,
        entry := none, metadata := none } .undef

mutual

/-- `MantarayNode.getForkAtPath` (v0.2, `src/node.ts` lines 432-450): the
prefix test is `findIndexOfArray(path, fork.prefix) === -1`, i.e. a
*substring* search over the whole path, after which the code drops
`fork.prefix.length` bytes from the front regardless of where the match
was found. -/
def Node02.getForkAtPath : Node02 → JBytes → Except MErr (JBytes × Node02)
  | .mk _ forks, path =>
    if path = [] then .error .emptyPath
    else
      match forks with
      | .undef => .error .forksUndefined
      | .defined l => ForkList02.getAtKey l (path.headD 0) path

def ForkList02.getAtKey : ForkList02 → Nat → JBytes → Except MErr (JBytes × Node02)
  | .nil, _, _ => .error .notFound
  | .cons k p c rest, key, path =>
    if k = key then
      match findIndexOfArray path p with
      | none => .error .notFound
      | some _ =>
        let restPath := path.drop p.length
        if restPath = [] then .ok (p, c) else Node02.getForkAtPath c restPath
    else ForkList02.getAtKey rest key path

end

/-! ## C2: dirty propagation of `removePath` -/

/-- Leaf with an entry, saved under content address `6,6,...`. -/
def c2NodeB : MantarayNode :=
  .mk { freshCore with
          contentAddress := some (List.replicate 32 6),
          entry := some (List.replicate 32 8), hasEntry := true } (.undef)

/-- Inner node holding the fork `98 → c2NodeB`, saved under `5,5,...`. -/
def c2NodeA : MantarayNode :=
  .mk { freshCore with contentAddress := some (List.replicate 32 5), isEdge := true }
    (.defined (.cons 98 [98] c2NodeB .nil))

/-- Clean, saved root holding the fork `97 → c2NodeA`. -/
def c2Tree : MantarayNode :=
  .mk { freshCore with contentAddress := some (List.replicate 32 4), isEdge := true }
    (.defined (.cons 97 [97] c2NodeA .nil))

/-- `c2NodeA` after losing its fork: dirty. -/
def c2NodeA' : MantarayNode :=
  .mk { freshCore with contentAddress := none, isEdge := true } (.defined .nil)

/-- `c2Tree` after `removePath [97, 98]`: the root keeps its content address. -/
def c2TreeAfter : MantarayNode :=
  .mk { freshCore with contentAddress := some (List.replicate 32 4), isEdge := true }
    (.defined (.cons 97 [97] c2NodeA' .nil))

/-- **C2 counterexample.** On the clean, previously saved two-level tree
`c2Tree`, `removePath [97, 98]` deletes the fork two levels below the
root; afterwards the immediate parent of the deleted fork is dirty but the
root still carries its cached `contentAddress` — the root on the path to
the deleted fork is *not* dirty, refuting the claim. -/
theorem c2_root_not_dirtied_cex :
    MantarayNode.removePath c2Tree [97, 98] = .ok c2TreeAfter ∧
      c2NodeA'.core.contentAddress = none ∧
      c2TreeAfter.core.contentAddress = some (List.replicate 32 4) ∧
      ¬ c2TreeAfter.core.contentAddress = none :=
  ⟨rfl, rfl, rfl, by decide⟩

/-- Whether `removePath path` performs its deletion directly in `n`'s own
fork map (the fork under `path[0]` exists, the path begins with its prefix
and nothing of the path remains after it). -/
def removesAtTopLevel (n : MantarayNode) (path : JBytes) : Bool :=
  match n.forks with
  | .undef => false
  | .defined l =>
    match ForkList.lookup l (path.headD 0) with
    | none => false
    | some (p, _) => beginsWith path p && decide (path.drop p.length = [])

theorem removeAtKey_deletedFlag (l : ForkList) (key : Nat) (path : JBytes)
    (l' : ForkList) (d : Bool)
    (h : ForkList.removeAtKey l key path = .ok (l', d)) :
    d = (match ForkList.lookup l key with
         | none => false
         | some (p, _) => beginsWith path p && decide (path.drop p.length = [])) := by
  match l with
  | .nil => simp [ForkList.removeAtKey] at h
  | .cons k p c rest =>
    simp only [ForkList.removeAtKey, ForkList.lookup] at h ⊢
    by_cases hk : k = key
    · simp only [if_pos hk] at h ⊢
      by_cases hb : beginsWith path p = true
      · simp only [hb, if_pos, Bool.true_and] at h ⊢
        by_cases hr : path.drop p.length = []
        · simp only [if_pos hr, Except.ok.injEq, Prod.mk.injEq] at h
          simp [hr, h.2.symm]
        · simp only [if_neg hr] at h
          cases hc : MantarayNode.removePath c (path.drop p.length) with
          | error e =>
            rw [hc, bindErr] at h
            exact Except.noConfusion h
          | ok c' =>
            rw [hc, bindOk] at h
            simp only [Except.ok.injEq, Prod.mk.injEq] at h
            simp [hr, h.2.symm]
      · simp only [Bool.not_eq_true] at hb
        simp only [hb, Bool.false_eq_true, if_false] at h
        exact Except.noConfusion h
    · simp only [if_neg hk] at h ⊢
      cases hrest : ForkList.removeAtKey rest key path with
      | error e =>
        rw [hrest, bindErr] at h
        exact Except.noConfusion h
      | ok pr =>
        rw [hrest, bindOk] at h
        match pr with
        | (rest', d') =>
          simp only [Except.ok.injEq, Prod.mk.injEq] at h
          rw [← h.2]
          exact removeAtKey_deletedFlag rest key path rest' d' hrest

/-- **C2 (amended).** A successful `removePath` marks only the immediate
parent of the deleted fork dirty: when the deletion happens in `n`'s own
fork map, `n` loses its `contentAddress`; when the deletion happens deeper,
`n`'s `contentAddress` is left exactly as it was — ancestors above the
deleted fork's parent are *not* dirtied. -/
theorem c2_removePath_dirties_only_parent (n : MantarayNode) (path : JBytes)
    (n' : MantarayNode) (h : n.removePath path = .ok n') :
    (removesAtTopLevel n path = true → n'.core.contentAddress = none) ∧
      (removesAtTopLevel n path = false →
        n'.core.contentAddress = n.core.contentAddress) := by
  by_cases hp : path = []
  · subst hp
    match n with
    | .mk core forks => simp [MantarayNode.removePath] at h
  · match n with
    | .mk core .undef =>
      simp only [MantarayNode.removePath, if_neg hp] at h
      exact Except.noConfusion h
    | .mk core (.defined l) =>
      simp only [MantarayNode.removePath, if_neg hp] at h
      cases hr : ForkList.removeAtKey l (path.headD 0) path with
      | error e =>
        simp only [hr, bindErr] at h
        exact Except.noConfusion h
      | ok pr =>
        obtain ⟨l₁, d⟩ := pr
        simp only [hr, bindOk] at h
        have hd := removeAtKey_deletedFlag l (path.headD 0) path l₁ d hr
        have htop : removesAtTopLevel (.mk core (.defined l)) path =
            (match ForkList.lookup l (path.headD 0) with
             | none => false
             | some (p, _) =>
               beginsWith path p && decide (path.drop p.length = [])) := rfl
        cases hdv : d with
        | true =>
          subst hdv
          rw [if_pos rfl] at h
          simp only [Except.ok.injEq] at h
          subst h
          constructor
          · intro _; rfl
          · intro hfalse
            rw [htop, ← hd] at hfalse
            exact Bool.noConfusion hfalse
        | false =>
          subst hdv
          rw [if_neg (by simp)] at h
          simp only [Except.ok.injEq] at h
          subst h
          constructor
          · intro htrue
            rw [htop, ← hd] at htrue
            exact Bool.noConfusion htrue
          · intro _; rfl

/-- Witness for C2 (amended) on the concrete tree `c2Tree`. -/
theorem c2_removePath_dirties_only_parent_witness :
    (removesAtTopLevel c2Tree [97, 98] = true →
        c2TreeAfter.core.contentAddress = none) ∧
      (removesAtTopLevel c2Tree [97, 98] = false →
        c2TreeAfter.core.contentAddress = c2Tree.core.contentAddress) :=
  c2_removePath_dirties_only_parent c2Tree [97, 98] c2TreeAfter rfl

/-! ## C3: prefix matching during navigation -/

theorem getAtKey_mismatch (l : ForkList) (key : Nat) (path : JBytes)
    (p : JBytes) (c : MantarayNode)
    (hlook : ForkList.lookup l key = some (p, c))
    (hmiss : beginsWith path p = false) :
    ForkList.getAtKey l key path = .error .notFound := by
  match l with
  | .nil => exact Option.noConfusion hlook
  | .cons k p' c' rest =>
    simp only [ForkList.lookup] at hlook
    simp only [ForkList.getAtKey]
    by_cases hk : k = key
    · simp only [if_pos hk] at hlook ⊢
      simp only [Option.some.injEq, Prod.mk.injEq] at hlook
      rw [hlook.1, hmiss]
      simp
    · simp only [if_neg hk] at hlook ⊢
      exact getAtKey_mismatch rest key path p c hlook hmiss

theorem removeAtKey_mismatch (l : ForkList) (key : Nat) (path : JBytes)
    (p : JBytes) (c : MantarayNode)
    (hlook : ForkList.lookup l key = some (p, c))
    (hmiss : beginsWith path p = false) :
    ForkList.removeAtKey l key path = .error .notFound := by
  match l with
  | .nil => exact Option.noConfusion hlook
  | .cons k p' c' rest =>
    simp only [ForkList.lookup] at hlook
    simp only [ForkList.removeAtKey]
    by_cases hk : k = key
    · simp only [if_pos hk] at hlook ⊢
      simp only [Option.some.injEq, Prod.mk.injEq] at hlook
      rw [hlook.1, hmiss]
      simp
    · simp only [if_neg hk] at hlook ⊢
      rw [removeAtKey_mismatch rest key path p c hlook hmiss, bindErr]

/-- The v1.0 half of C3, which the current implementation satisfies: when
the fork under `path[0]` exists but the path does not begin with its
prefix, both `getForkAtPath` and `removePath` fail with *not-found* —
an occurrence of the prefix at a later offset does not help, since
`isPrefixedBy` anchors the comparison at offset 0. -/
theorem c3_v10_mismatch_not_found (core : NodeCore) (l : ForkList) (path : JBytes)
    (p : JBytes) (c : MantarayNode) (hne : path ≠ [])
    (hlook : ForkList.lookup l (path.headD 0) = some (p, c))
    (hmiss : beginsWith path p = false) :
    MantarayNode.getForkAtPath (.mk core (.defined l)) path = .error .notFound ∧
      MantarayNode.removePath (.mk core (.defined l)) path = .error .notFound := by
  constructor
  · simp only [MantarayNode.getForkAtPath, if_neg hne]
    exact getAtKey_mismatch l (path.headD 0) path p c hlook hmiss
  · simp only [MantarayNode.removePath, if_neg hne]
    rw [removeAtKey_mismatch l (path.headD 0) path p c hlook hmiss, bindErr]

/-- v0.2 leaf under logical path `[97, 98] ++ [98]`. -/
def c3Leaf02 : Node02 :=
  .mk { typ := some 2, obfuscationKey := none, contentAddress := none,
        entry := some (List.replicate 32 9), metadata := none } (.undef)

/-- v0.2 inner node with the single fork `98 → c3Leaf02`. -/
def c3Mid02 : Node02 :=
  .mk { typ := some 6, obfuscationKey := none, contentAddress := none,
        entry := none, metadata := none } (.defined (.cons 98 [98] c3Leaf02 .nil))

/-- v0.2 root with the single fork `97 → (prefix [97, 98], c3Mid02)`. -/
def c3Tree02 : Node02 :=
  .mk { typ := some 4, obfuscationKey := none, contentAddress := none,
        entry := none, metadata := none } (.defined (.cons 97 [97, 98] c3Mid02 .nil))

/-- **C3, v0.2 divergence at a concrete input.** The path `[97, 97, 98]`
does not begin with the root fork's prefix `[97, 98]`, so the claim (and
the spec) require *not-found*; but because `findIndexOfArray` finds the
prefix at offset 1 inside the path, v0.2 `getForkAtPath` accepts the path
and returns the fork at the unrelated logical path `[97, 98, 98]`. -/
theorem c3_v02_substring_accepted_cex :
    beginsWith [97, 97, 98] [97, 98] = false ∧
      findIndexOfArray [97, 97, 98] [97, 98] = some 1 ∧
      Node02.getForkAtPath c3Tree02 [97, 97, 98] = .ok ([98], c3Leaf02) :=
  ⟨by decide, by decide, rfl⟩

/-! ## `MantarayFork.serialize` / `MantarayFork.deserialize` (v1.0) -/

/-- `MantarayFork.serialize(segmentSize)` (`src/index.ts` lines 110-135).
The prefix-length byte is the prefix length (stored into a `Uint8Array`,
hence mod 256), incremented once when the child is a continuous node and
the prefix is exactly 31 bytes long; `prefixBytes.set(prefix)` throws for
a prefix longer than the 31-byte slot; the fork record is the length byte,
the zero-padded 31-byte prefix, the child's `contentAddress` (an error if
absent) and, for a positive segment size, the padded fork-metadata slot. -/
def forkSerialize (J : JsonCodec) (segmentSize : Nat) (pfx : JBytes)
    (node : MantarayNode) : Except MErr JBytes :=
  let metadata := node.core.forkMetadata
  let lenByte :=
    if node.core.isContinuousNode ∧ pfx.length = 31 then (pfx.length % 256 + 1) % 256
    else pfx.length % 256
  if pfx.length ≤ 31 then
    let pfxPadded := pfx ++ List.replicate (31 - pfx.length) 0
    match node.core.contentAddress with
    | none => .error .noContentAddress
    | some mantarayReference =>
      let data := lenByte :: (pfxPadded ++ mantarayReference)
      if segmentSize > 0 then do
        let metadataBytes ← serializeMetadataInSegment J metadata segmentSize
        .ok (data ++ metadataBytes)
      else .ok data
  else .error .pfxTooLong

/-- `MantarayFork.deserialize(data, encEntry)` (`src/index.ts` lines
137-165): a prefix-length byte above 31 means a 31-byte prefix and a
continuous child; the child node is fresh except for its continuity flag,
the fork metadata parsed from the trailing slot (assigned through the
`forkMetadata` setter) and its `contentAddress` (assigned last, through
the setter, which checks the reference length). -/
def forkDeserialize (J : JsonCodec) (data : JBytes) (encEntry : Bool) :
    Except MErr (JBytes × MantarayNode) := do
  let p0 := data.headD 0
  let cont : Bool := decide (p0 > 31)
  let plen := if p0 > 31 then 31 else p0
  let pfx := jsSlice data 1 (1 + plen)
  let entryLength := if encEntry then 64 else 32
  let contentAddress := jsSlice data 32 (32 + entryLength)
  let metadataBytes := jsSliceFrom data (32 + entryLength)
  let node := MantarayNode.mk { freshCore with isContinuousNode := cont } .undef
  let node :=
    if metadataBytes.length > 0 then
      node.setForkMetadata (deserializeMetadata J metadataBytes)
    else node
  let node ← node.setContentAddress (some contentAddress)
  .ok (pfx, node)

/-! ## `MantarayNode.addFork` (v1.0, `src/index.ts` lines 336-441) -/

/-- The `attributes` argument of v1.0 `addFork`.  The source's
`obfuscationKeyGenerator` is a random-32-bytes function; the model supplies
the generated key as a constant (none of the claims exercises more than
one generation per relevant call). -/
structure ForkAttributes where
  entry : Option JBytes := none
  nodeMetadata : Option MetaMap := none
  forkMetadata : Option MetaMap := none
  obfuscationKeyGenerator : Option JBytes := none
  deriving DecidableEq, Repr

/-- `this.forks[key] = fork`: insert or replace, keeping the association
list in the ascending key order in which JS enumerates integer keys. -/
def ForkList.set : ForkList → Nat → JBytes → MantarayNode → ForkList
  | .nil, key, p, c => .cons key p c .nil
  | .cons k p0 c0 rest, key, p, c =>
    if key = k then .cons k p c rest
    else if key < k then .cons key p c (.cons k p0 c0 rest)
    else .cons k p0 c0 (ForkList.set rest key p c)

def ForkList.keys : ForkList → List Nat
  | .nil => []
  | .cons k _ _ rest => k :: ForkList.keys rest

/-- `handleTrimmedContinuousFork` (`src/index.ts` lines 733-759): merge a
continuous fork `(pfx, node)` with its only child fork; an error unless
the node is continuous with exactly one fork.  Returns the new prefix and
node of the fork. -/
def handleTrimmedContinuousFork (pfx : JBytes) (node : MantarayNode) :
    Except MErr (JBytes × MantarayNode) :=
  match node.forks with
  | .defined (.cons k cpfx cchild .nil) =>
    if node.core.isContinuousNode then
      let commonPrefixLength := pfx.length + cpfx.length
      if commonPrefixLength < 31 then .ok (pfx ++ cpfx, cchild)
      else
        let remaining := 31 - pfx.length
        .ok (pfx ++ cpfx.take remaining,
          node.withForks (.defined (.cons k (cpfx.drop remaining) cchild .nil)))
    else .error .badContinuousFork
  | _ => .error .badContinuousFork

/-- The fork-map initialization
`if (this.isDirty() && !this.forks) this.forks = {}` of `addFork`. -/
def MantarayNode.ensureForks (n : MantarayNode) : MantarayNode :=
  match n.forks, n.isDirty with
  | .undef, true => n.withForks (.defined .nil)
  | _, _ => n

/-- `MantarayNode.addFork(path, attributes)` (v1.0).  The recursion of the
source is not structural (an edge split recurses on an unshortened path
into a freshly built node), so the model makes totality explicit with a
fuel parameter; every theorem quantifies over sufficient fuel. -/
def MantarayNode.addFork (fuel : Nat) (n : MantarayNode) (path : JBytes)
    (attrs : ForkAttributes) : Except MErr MantarayNode :=
  match fuel with
  | 0 => .error .fuelOut
  | fuel + 1 =>
    if path = [] then do
      -- apply the attributes to the current node
      let n ← match attrs.entry with
        | some e => n.setEntry (some e)
        | none => .ok n
      let n := n.setNodeMetadata attrs.nodeMetadata
      let n := n.setForkMetadata attrs.forkMetadata
      .ok n
    else
      -- if (this.isDirty() && !this.forks) this.forks = {}
      let n := n.ensureForks
      match n.forks with
      | .undef => .error .forksUndefined
      | .defined l =>
        match ForkList.lookup l (path.headD 0) with
        | none => do
          let newNode := MantarayNode.fresh
          let newNode ←
            if n.core.obfuscationKey = null32Bytes then .ok newNode
            else match attrs.obfuscationKeyGenerator with
              | none => .error .randomFnUndefined
              | some g => newNode.setObfuscationKey g
          if path.length > 31 then do
            -- continuous node: keep the first 31 bytes, push the rest down
            let pfx := path.take 31
            let rest := path.drop 31
            let newNode ← MantarayNode.addFork fuel newNode rest attrs
            let newNode := newNode.mapCore fun c => { c with isContinuousNode := true }
            .ok ((n.withForks (.defined (l.set (path.headD 0) pfx newNode))).mapCore
              fun c => { c with isEdge := true, contentAddress := none })
          else do
            -- create a non-continuous node carrying the attributes
            let newNode ← match attrs.entry with
              | some e => newNode.setEntry (some e)
              | none => .ok newNode
            let newNode := newNode.setForkMetadata attrs.forkMetadata
            let newNode := newNode.setNodeMetadata attrs.nodeMetadata
            .ok ((n.withForks (.defined (l.set (path.headD 0) path newNode))).mapCore
              fun c => { c with contentAddress := none, isEdge := true })
        | some (fpfx, fnode) => do
          -- existing fork for the given (sub)path
          let commonPath := commonBytes fpfx path
          let restPath := fpfx.drop commonPath.length
          let newNode ←
            if restPath = [] then .ok fnode
            else do
              -- split: new intermediate node for the common path
              let nn := MantarayNode.fresh
              let nn ←
                if n.core.obfuscationKey = null32Bytes then
                  nn.setObfuscationKey (List.replicate 32 0)
                else match attrs.obfuscationKeyGenerator with
                  | none => .error .randomFnUndefined
                  | some g => nn.setObfuscationKey g
              let newFork ←
                if fnode.core.isContinuousNode then
                  handleTrimmedContinuousFork restPath fnode
                else .ok (restPath, fnode)
              let nn := nn.withForks
                (.defined (ForkList.nil.set (restPath.headD 0) newFork.1 newFork.2))
              .ok (nn.mapCore fun c => { c with isEdge := true })
          let newNode ← MantarayNode.addFork fuel newNode (path.drop commonPath.length) attrs
          .ok ((n.withForks (.defined (l.set (path.headD 0) commonPath newNode))).mapCore
            fun c => { c with isEdge := true, contentAddress := none })

/-- The fork map of a node, `{}` when undefined. -/
def MantarayNode.forksListD (n : MantarayNode) : ForkList :=
  match n.forks with
  | .undef => .nil
  | .defined l => l

/-! ## C4: the continuous-fork rule, and C8: empty-path addFork -/

theorem MantarayNode.ensureForks_core (n : MantarayNode) :
    n.ensureForks.core = n.core := by
  match n with
  | .mk c f =>
    cases f with
    | undef =>
      cases hca : c.contentAddress with
      | none => simp [MantarayNode.ensureForks, MantarayNode.isDirty, MantarayNode.core,
          MantarayNode.forks, hca, MantarayNode.withForks]
      | some a => simp [MantarayNode.ensureForks, MantarayNode.isDirty, MantarayNode.core,
          MantarayNode.forks, hca]
    | defined l => rfl

theorem MantarayNode.ensureForks_forks (n : MantarayNode) :
    n.ensureForks.forks = Forks.defined n.forksListD ∨
      (n.ensureForks = n ∧ n.forks = Forks.undef) := by
  match n with
  | .mk c f =>
    cases f with
    | undef =>
      cases hca : c.contentAddress with
      | none =>
        left
        simp [MantarayNode.ensureForks, MantarayNode.isDirty, MantarayNode.core,
          MantarayNode.forks, hca, MantarayNode.withForks, MantarayNode.forksListD]
      | some a =>
        right
        refine ⟨?_, rfl⟩
        simp [MantarayNode.ensureForks, MantarayNode.isDirty, MantarayNode.core,
          MantarayNode.forks, hca]
    | defined l => left; rfl

theorem MantarayNode.forksListD_withForks_mapCore (n : MantarayNode) (l : ForkList)
    (g : NodeCore → NodeCore) :
    ((n.withForks (.defined l)).mapCore g).forksListD = l := by
  match n with
  | .mk c f => rfl

theorem setForkMetadata_isCont (n : MantarayNode) (m : Option MetaMap) :
    (n.setForkMetadata m).core.isContinuousNode = n.core.isContinuousNode := by
  match n, m with
  | .mk c f, none => rfl
  | .mk c f, some mm => rfl

theorem setContentAddress_isCont {n n' : MantarayNode} {v : Option JBytes}
    (h : n.setContentAddress v = .ok n') :
    n'.core.isContinuousNode = n.core.isContinuousNode := by
  match v with
  | none =>
    simp only [MantarayNode.setContentAddress, Except.ok.injEq] at h
    subst h
    match n with
    | .mk c f => rfl
  | some r =>
    simp only [MantarayNode.setContentAddress] at h
    cases har : assertReference r with
    | error e =>
      rw [har, bindErr] at h
      exact Except.noConfusion h
    | ok u =>
      rw [har, bindOk] at h
      simp only [Except.ok.injEq] at h
      subst h
      match n with
      | .mk c f => rfl

theorem ForkList.lookup_set_self (l : ForkList) (k : Nat) (p : JBytes) (c : MantarayNode) :
    ForkList.lookup (ForkList.set l k p c) k = some (p, c) := by
  match l with
  | .nil => simp [ForkList.set, ForkList.lookup]
  | .cons k0 p0 c0 rest =>
    simp only [ForkList.set]
    by_cases h : k = k0
    · simp [ForkList.lookup, h]
    · by_cases h2 : k < k0
      · simp [if_neg h, if_pos h2, ForkList.lookup]
      · simp only [if_neg h, if_neg h2, ForkList.lookup]
        rw [if_neg (fun hh => h hh.symm)]
        exact ForkList.lookup_set_self rest k p c

/-- **C4.**  The v1.0 continuous-fork rule, in three parts.
(1) `addFork` of a path longer than 31 bytes under a missing key installs a
fork whose prefix is the first 31 path bytes and whose child is marked
continuous.  (2) `MantarayFork.serialize` of a fork with a 31-byte prefix
and a continuous child writes prefix-length byte 32 followed by the 31
prefix bytes.  (3) `MantarayFork.deserialize` of any fork record whose
prefix-length byte exceeds 31 yields the record's 31-byte prefix and a
child marked continuous. -/
theorem c4_continuous_fork :
    (∀ (fuel : Nat) (n : MantarayNode) (path : JBytes) (attrs : ForkAttributes)
        (n' : MantarayNode),
        31 < path.length →
        n.core.obfuscationKey = null32Bytes →
        ForkList.lookup n.forksListD (path.headD 0) = none →
        MantarayNode.addFork (fuel + 1) n path attrs = .ok n' →
        ∃ child, ForkList.lookup n'.forksListD (path.headD 0) =
            some (path.take 31, child) ∧ child.core.isContinuousNode = true) ∧
      (∀ (J : JsonCodec) (seg : Nat) (pfx : JBytes) (node : MantarayNode) (bytes : JBytes),
        pfx.length = 31 → node.core.isContinuousNode = true →
        forkSerialize J seg pfx node = .ok bytes →
        bytes.headD 0 = 32 ∧ jsSlice bytes 1 32 = pfx) ∧
      (∀ (J : JsonCodec) (data : JBytes) (encEntry : Bool) (pfx : JBytes)
        (node : MantarayNode),
        31 < data.headD 0 → 32 ≤ data.length →
        forkDeserialize J data encEntry = .ok (pfx, node) →
        pfx = jsSlice data 1 32 ∧ pfx.length = 31 ∧ node.core.isContinuousNode = true) := by
  refine ⟨?_, ?_, ?_⟩
  · -- (1): the continuous branch of addFork
    intro fuel n path attrs n' hlen hobf hlook h
    have hpne : path ≠ [] := by
      intro hp; rw [hp] at hlen; simp at hlen
    simp only [MantarayNode.addFork, if_neg hpne] at h
    rcases MantarayNode.ensureForks_forks n with hEF | ⟨hEF, hun⟩
    · rw [hEF] at h
      simp only [] at h
      rw [hlook] at h
      simp only [] at h
      rw [MantarayNode.ensureForks_core, hobf, if_pos rfl] at h
      simp only [bindOk] at h
      rw [if_pos hlen] at h
      cases hin : MantarayNode.addFork fuel MantarayNode.fresh (path.drop 31) attrs with
      | error e =>
        rw [hin, bindErr] at h
        exact Except.noConfusion h
      | ok nn =>
        rw [hin] at h
        simp only [bindOk, Except.ok.injEq] at h
        subst h
        refine ⟨nn.mapCore fun c => { c with isContinuousNode := true }, ?_, ?_⟩
        · rw [MantarayNode.forksListD_withForks_mapCore]
          exact ForkList.lookup_set_self _ _ _ _
        · cases nn with
          | mk c f => rfl
    · rw [hEF, hun] at h
      simp only [] at h
      exact Except.noConfusion h
  · -- (2): serialization writes 31 bytes and a length byte of 32
    intro J seg pfx node bytes hl hcont h
    simp only [forkSerialize] at h
    rw [if_pos (show node.core.isContinuousNode = true ∧ pfx.length = 31 from
      ⟨hcont, hl⟩)] at h
    rw [if_pos (show pfx.length ≤ 31 by omega)] at h
    cases hca : node.core.contentAddress with
    | none =>
      rw [hca] at h
      exact Except.noConfusion h
    | some ca =>
      rw [hca] at h
      simp only [] at h
      have hpad : pfx ++ List.replicate (31 - pfx.length) 0 = pfx := by
        rw [hl]; simp
      by_cases hseg : seg > 0
      · rw [if_pos hseg] at h
        cases hm : serializeMetadataInSegment J node.core.forkMetadata seg with
        | error e =>
          rw [hm, bindErr] at h
          exact Except.noConfusion h
        | ok mb =>
          rw [hm, bindOk] at h
          simp only [Except.ok.injEq] at h
          subst h
          constructor
          · rw [List.cons_append, List.headD_cons, hl]
          · simp only [jsSlice, List.cons_append, List.drop_succ_cons,
              List.drop_zero, hpad, List.append_assoc]
            rw [show 32 - 1 = pfx.length by omega]
            exact List.take_left pfx _
      · rw [if_neg hseg] at h
        simp only [Except.ok.injEq] at h
        subst h
        constructor
        · rw [List.headD_cons, hl]
        · simp only [jsSlice, List.drop_succ_cons, List.drop_zero, hpad]
          rw [show 32 - 1 = pfx.length by omega]
          exact List.take_left pfx _
  · -- (3): deserialization of a record with length byte above 31
    intro J data encEntry pfx node hgt hlen h
    simp only [forkDeserialize, if_pos hgt, decide_eq_true hgt] at h
    cases hca : (if (jsSliceFrom data (32 + if encEntry then 64 else 32)).length > 0 then
        (MantarayNode.mk { freshCore with isContinuousNode := true } .undef).setForkMetadata
          (deserializeMetadata J (jsSliceFrom data (32 + if encEntry then 64 else 32)))
      else MantarayNode.mk { freshCore with isContinuousNode := true } .undef).setContentAddress
        (some (jsSlice data 32 (32 + if encEntry then 64 else 32))) with
    | error e =>
      rw [hca, bindErr] at h
      exact Except.noConfusion h
    | ok node₁ =>
      rw [hca, bindOk] at h
      simp only [Except.ok.injEq, Prod.mk.injEq] at h
      obtain ⟨hpfx, hnode⟩ := h
      refine ⟨?_, ?_, ?_⟩
      · rw [← hpfx]
      · rw [← hpfx]
        simp only [jsSlice, List.length_take, List.length_drop]
        omega
      · rw [← hnode]
        rw [setContentAddress_isCont hca]
        by_cases hc : (jsSliceFrom data (32 + if encEntry then 64 else 32)).length > 0
        · rw [if_pos hc, setForkMetadata_isCont]
          rfl
        · rw [if_neg hc]
          rfl

/-- The continuous child created by the C4 witness `addFork`. -/
def c4WitChild : MantarayNode :=
  .mk { freshCore with isEdge := true, isContinuousNode := true }
    (.defined (.cons 7 [7, 7] MantarayNode.fresh .nil))

/-- The node produced by the C4 witness `addFork` of a 33-byte path. -/
def c4WitRes : MantarayNode :=
  .mk { freshCore with isEdge := true }
    (.defined (.cons 7 (List.replicate 31 7) c4WitChild .nil))

/-- A trivial JSON codec used to instantiate witnesses whose inputs carry
no metadata. -/
def J0 : JsonCodec := { enc := fun _ => [], dec := fun _ => none }

/-- A continuous node with a 31-byte prefix, ready for fork serialization. -/
def c4SerNode : MantarayNode :=
  .mk { freshCore with isContinuousNode := true,
                       contentAddress := some (List.replicate 32 9) } .undef

def c4SerBytes : JBytes := 32 :: (List.replicate 31 7 ++ List.replicate 32 9)

def c4DesData : JBytes := 40 :: (List.replicate 31 7 ++ List.replicate 32 9)

/-- The node produced by deserializing `c4DesData`. -/
def c4DesNode : MantarayNode :=
  .mk { freshCore with isContinuousNode := true,
                       contentAddress := some (List.replicate 32 9) } (.undef)

/-- Witness for C4 at concrete inputs for all three parts. -/
theorem c4_continuous_fork_witness :
    (∃ child, ForkList.lookup c4WitRes.forksListD ((List.replicate 33 7).headD 0) =
        some ((List.replicate 33 7).take 31, child) ∧
        child.core.isContinuousNode = true) ∧
      (c4SerBytes.headD 0 = 32 ∧ jsSlice c4SerBytes 1 32 = List.replicate 31 7) ∧
      ((List.replicate 31 7 : JBytes) = jsSlice c4DesData 1 32 ∧
        (List.replicate 31 7 : JBytes).length = 31 ∧
        c4DesNode.core.isContinuousNode = true) :=
  ⟨c4_continuous_fork.1 1 MantarayNode.fresh (List.replicate 33 7) {} c4WitRes
      (by decide) rfl rfl rfl,
   c4_continuous_fork.2.1 J0 0 (List.replicate 31 7) c4SerNode c4SerBytes
      (by decide) rfl rfl,
   c4_continuous_fork.2.2 J0 c4DesData false (List.replicate 31 7) c4DesNode
      (by decide) (by decide) rfl⟩

/-- **C8 divergence at a concrete input.**  `addFork` with the empty path
and `{nodeMetadata: m}` ends with `this.forkMetadata = attributes.forkMetadata`,
whose `undefined` branch assigns `this._nodeMetadata = undefined`; the
supplied node metadata is therefore erased: the result of applying the
attributes `{nodeMetadata := some m}` to a fresh node carries *no* node
metadata (it is the unchanged fresh node). -/
theorem c8_empty_path_clobbers_nodeMetadata_cex :
    MantarayNode.addFork 1 MantarayNode.fresh []
        { nodeMetadata := some [("k", "v")] } = .ok MantarayNode.fresh ∧
      MantarayNode.fresh.core.nodeMetadata = none ∧
      ¬ MantarayNode.fresh.core.nodeMetadata = some [("k", "v")] :=
  ⟨rfl, rfl, by decide⟩

/-! ## v1.0 node serialization (`MantarayNode.serialize` / `deserialize`) -/

/-- `IndexBytes.setByte`: set bit `b % 8` of byte `b / 8` of the 32-byte
fork index bitmap. -/
def IndexBytes.setByte (bytes : JBytes) (b : Nat) : JBytes :=
  bytes.set (b / 8) ((bytes.getD (b / 8) 0) ||| (1 <<< (b % 8)))

/-- `IndexBytes.checkBytePresent`: test bit `b % 8` of byte `b / 8`. -/
def IndexBytes.checkBytePresent (bytes : JBytes) (b : Nat) : Bool :=
  decide (0 < (((bytes.getD (b / 8) 0) >>> (b % 8)) &&& 1))

/-- `IndexBytes.forEach` visits exactly the set bytes, in ascending order
(`for i in 0..255`). -/
def indexBytesForEachList (bytes : JBytes) : List Nat :=
  (List.range 256).filter (fun b => IndexBytes.checkBytePresent bytes b)

/-- `serializeVersion("1.0")` / `("0.2")` / `("0.1")`: the first 31 bytes
of `keccak256("mantaray:" + version)`.  The keccak digest is computed by
the external `js-sha3` package; the model represents the version tags as
opaque, pairwise distinct 31-byte constants — the library relies only on
their length, fixedness and distinctness. -/
def versionHash10 : JBytes := List.replicate 31 1

def versionHash02 : JBytes := List.replicate 31 2

def versionHash01 : JBytes := List.replicate 31 3

/-- The `Object.entries(this.forks)` loop of v1.0 `serialize`: register
every fork key in the index bitmap (`setByte` throws above 255), and
auto-grow `forkMetadataSegmentSize` to the largest metadata segment count
among the forks (through the setter, which rejects values above 31). -/
def ForkList.indexAndGrow (J : JsonCodec) :
    ForkList → JBytes → Nat → Except MErr (JBytes × Nat)
  | .nil, bitmap, seg => .ok (bitmap, seg)
  | .cons k _ c rest, bitmap, seg => do
    if k > 255 then .error .setByteRange
    else do
      let bitmap := IndexBytes.setByte bitmap k
      let seg ← match c.core.forkMetadata with
        | some m =>
          let metadataBytes := serializeMedata J m
          let forkMetadataSegmentSize := (metadataBytes.length + 31) / 32
          if forkMetadataSegmentSize > seg then
            if forkMetadataSegmentSize > 31 then .error .segSizeTooLarge
            else .ok forkMetadataSegmentSize
          else .ok seg
        | none => .ok seg
      ForkList.indexAndGrow J rest bitmap seg

/-- The `index.forEach` serialization loop of v1.0 `serialize`: serialize
the fork under every byte present in the bitmap, in ascending byte order;
an indexing error if the bitmap names a byte with no fork. -/
def serializeForksLoop (J : JsonCodec) (l : ForkList) (seg : Nat) :
    List Nat → Except MErr JBytes
  | [] => .ok []
  | b :: bs =>
    match ForkList.lookup l b with
    | none => .error .forkIndexing
    | some (p, c) => do
      let fb ← forkSerialize J seg p c
      let rest ← serializeForksLoop J l seg bs
      .ok (fb ++ rest)

/-- The `nodeFeatures` byte: 5-bit `forkMetadataSegmentSize`, then the
`isEdge`, `encEntry`, `hasEntry` bits, packed from the top; stored in a
one-byte `Uint8Array`, hence mod 256. -/
def serializeFeaturesByte (hasEntry encEntry isEdge : Bool) (seg : Nat) : Nat :=
  let f := seg
  let f := (f <<< 1) + (if isEdge then 1 else 0)
  let f := (f <<< 1) + (if encEntry then 1 else 0)
  let f := (f <<< 1) + (if hasEntry then 1 else 0)
  f % 256

/-- `serializeFeatures`: fails when `encEntry` is set without `hasEntry`. -/
def MantarayNode.serializeFeatures (n : MantarayNode) : Except MErr Nat :=
  if n.core.encEntry && !n.core.hasEntry then .error .encEntryNoEntry
  else .ok (serializeFeaturesByte n.core.hasEntry n.core.encEntry n.core.isEdge
    n.core.forkMetadataSegmentSize)

/-- The part of v1.0 `serialize` following the fork-map initialization:
header, entry, fork index bitmap and fork records (with the
auto-grown `forkMetadataSegmentSize`), node metadata, XOR obfuscation. -/
def MantarayNode.serializeBody (J : JsonCodec) (n : MantarayNode) :
    Except MErr (MantarayNode × JBytes) := do
  let obfuscationKey := n.core.obfuscationKey
  let versionBytes := versionHash10
  let entry := n.core.entry.getD []
  let (n, indexBytes, forkBytes) ←
    if n.core.isEdge then do
      let l := n.forksListD
      let (bitmap, seg) ← ForkList.indexAndGrow J l (List.replicate 32 0)
        n.core.forkMetadataSegmentSize
      let n := n.mapCore fun c => { c with forkMetadataSegmentSize := seg }
      let forkBytes ← serializeForksLoop J l seg (indexBytesForEachList bitmap)
      .ok (n, bitmap, forkBytes)
    else .ok (n, ([] : JBytes), ([] : JBytes))
  let nodeFeatures ← n.serializeFeatures
  let nodeMetadataBytes := match n.core.nodeMetadata with
    | some m => serializeMedata J m
    | none => ([] : JBytes)
  let bytes := obfuscationKey ++ versionBytes ++ [nodeFeatures] ++ entry
      ++ indexBytes ++ forkBytes ++ nodeMetadataBytes
  .ok (n, encryptDecrypt obfuscationKey bytes obfuscationKey.length)

/-- `MantarayNode.serialize` (v1.0, `src/index.ts` lines 524-596).  The
source mutates the node (defines an empty fork map, auto-grows
`forkMetadataSegmentSize`); the model returns the updated node together
with the bytes. -/
def MantarayNode.serialize (J : JsonCodec) (n : MantarayNode) :
    Except MErr (MantarayNode × JBytes) := do
  -- if (!this.forks) { if (!this._entry) throw; this.forks = {} }
  let n ← match n.forks with
    | .undef =>
      match n.core.entry with
      | none => .error .undefinedFieldEntry
      | some _ => .ok (n.withForks (.defined .nil))
    | .defined _ => .ok n
  MantarayNode.serializeBody J n

/-- The `indexForks.forEach` parsing loop of v1.0 `deserialize`: read one
fixed-size fork record per bitmap byte, in ascending order. -/
def deserializeForksLoop (J : JsonCodec) (data : JBytes) (encEntry : Bool) (forkSize : Nat) :
    List Nat → Nat → ForkList → Except MErr (ForkList × Nat)
  | [], offset, acc => .ok (acc, offset)
  | b :: bs, offset, acc =>
    if data.length < offset + forkSize then .error .forkDataShort
    else do
      let forkBytes := jsSlice data offset (offset + forkSize)
      let (p, c) ← forkDeserialize J forkBytes encEntry
      deserializeForksLoop J data encEntry forkSize bs (offset + forkSize) (acc.set b p c)

/-- `MantarayNode.deserialize` (v1.0, `src/index.ts` lines 598-664),
mutating `self`: fields that the source never assigns (`entry` when
`hasEntry` is unset, `forks` when `isEdge` is unset, `nodeMetadata` when
no bytes remain, `forkMetadata`, `isContinuousNode`, `contentAddress`)
keep their previous values. -/
def MantarayNode.deserialize (J : JsonCodec) (self : MantarayNode) (data : JBytes) :
    Except MErr MantarayNode := do
  if data.length < 64 then .error .tooShort
  else do
    let obfuscationKey := jsSlice data 0 32
    let data := encryptDecrypt obfuscationKey data obfuscationKey.length
    let versionHash := jsSlice data 32 63
    if versionHash ≠ versionHash10 then .error .badVersion
    else do
      let nodeFeaturesByte := data.getD 63 0
      -- deserializeFeatures: three flag bits, then the 5-bit segment size
      let hasEntry := nodeFeaturesByte % 2 == 1
      let f1 := nodeFeaturesByte >>> 1
      let encEntry := f1 % 2 == 1
      let f2 := f1 >>> 1
      let isEdge := f2 % 2 == 1
      let seg := f2 >>> 1
      if seg > 31 then .error .segSizeTooLarge
      else do
        let self := self.mapCore fun c =>
          { c with obfuscationKey := obfuscationKey, hasEntry := hasEntry,
                   encEntry := encEntry, isEdge := isEdge,
                   forkMetadataSegmentSize := seg }
        let refBytesSize := if hasEntry then (if encEntry then 64 else 32) else 0
        let self ←
          if hasEntry then self.setEntry (some (jsSlice data 64 (64 + refBytesSize)))
          else .ok self
        let offset := 64 + refBytesSize
        let (self, offset) ←
          if isEdge then do
            let indexBytes := jsSlice data offset (offset + 32)
            -- IndexBytes.setBytes checks the length
            if indexBytes.length ≠ 32 then .error .badIndexBytes
            else do
              let offset := offset + 32
              let forkSize := 32 + (if encEntry then 64 else 32) + seg * 32
              let (fl, offset) ← deserializeForksLoop J data encEntry forkSize
                (indexBytesForEachList indexBytes) offset .nil
              .ok (self.withForks (.defined fl), offset)
          else .ok (self, offset)
        let metadataBytes := jsSliceFrom data offset
        let self :=
          if metadataBytes.length > 0 then
            self.mapCore fun c => { c with nodeMetadata := deserializeMetadata J metadataBytes }
          else self
        .ok self

/-! ## `recursiveSave` (v1.0, `src/index.ts` lines 699-720)

The storage saver is a pure function from bytes to the returned reference;
the result carries the updated node, the reference, the `changed` flag and
the number of `storage.save` submissions in the subtree. -/

mutual

def MantarayNode.recursiveSave (J : JsonCodec) (store : JBytes → JBytes) :
    MantarayNode → Except MErr (MantarayNode × JBytes × Bool × Nat)
  | .mk core .undef =>
    -- if (!this.forks) this.forks = {} ; no children to save
    match core.contentAddress with
    | some ca => .ok (.mk core (.defined .nil), ca, false, 0)
    | none => do
      let (n₁, bytes) ← MantarayNode.serialize J (.mk core (.defined .nil))
      let reference := store bytes
      let n₂ ← n₁.setContentAddress (some reference)
      .ok (n₂, reference, true, 1)
  | .mk core (.defined l) => do
    let (l', anyChanged, cnt) ← ForkList.saveAll J store l
    match core.contentAddress, anyChanged with
    | some ca, false => .ok (.mk core (.defined l'), ca, false, cnt)
    | _, _ => do
      let (n₁, bytes) ← MantarayNode.serialize J (.mk core (.defined l'))
      let reference := store bytes
      let n₂ ← n₁.setContentAddress (some reference)
      .ok (n₂, reference, true, cnt + 1)

/-- Save every child fork (the source awaits them as a group; the effects
on a pure storage function do not depend on the interleaving), collecting
whether any subtree reported `changed` and the number of submissions. -/
def ForkList.saveAll (J : JsonCodec) (store : JBytes → JBytes) :
    ForkList → Except MErr (ForkList × Bool × Nat)
  | .nil => .ok (.nil, false, 0)
  | .cons k p c rest => do
    let (c', _, changed, cnt) ← MantarayNode.recursiveSave J store c
    let (rest', restChanged, restCnt) ← ForkList.saveAll J store rest
    .ok (.cons k p c' rest', changed || restChanged, cnt + restCnt)

end

/-! ## C7: saving a dirty node with no entry and no forks -/

/-- A fixed in-memory storage saver for concrete save scenarios. -/
def c7Store : JBytes → JBytes := fun _ => List.replicate 32 9

/-- **C7 counterexample.**  A fresh node is dirty and has neither an entry
nor any forks, yet `recursiveSave` does *not* raise the nothing-to-serialize
error: it first initializes `this.forks = {}`, after which `serialize`'s
`if (!this.forks)` guard cannot fire, and it submits the 64-byte header to
storage (one `storage.save` call, `changed = true`). -/
theorem c7_empty_dirty_node_saves_cex :
    MantarayNode.fresh.isDirty = true ∧
      MantarayNode.fresh.core.entry = none ∧
      MantarayNode.fresh.forks = Forks.undef ∧
      MantarayNode.recursiveSave J0 c7Store MantarayNode.fresh =
        .ok (.mk { freshCore with contentAddress := some (List.replicate 32 9) }
              (.defined .nil),
             List.replicate 32 9, true, 1) :=
  ⟨rfl, rfl, rfl, rfl⟩

/-- The 64 bytes submitted when saving an entry-less, fork-less node. -/
def c7HeaderBytes (seg : Nat) : JBytes :=
  List.replicate 32 0 ++ versionHash10 ++ [serializeFeaturesByte false false false seg]

/-- **C7 (amended).**  `save` does not fail on a dirty node with neither
entry nor forks: `recursiveSave` initializes the fork map before
serializing, so the node is serialized as its 64-byte header and submitted
to storage (the `UndefinedField('entry')` error can only be raised by a
direct `serialize()` call on a node whose fork map was never touched). -/
theorem c7_empty_dirty_node_saves_header (J : JsonCodec) (store : JBytes → JBytes)
    (seg : Nat) (hstore : (store (c7HeaderBytes seg)).length = 32) :
    MantarayNode.recursiveSave J store
        (.mk { freshCore with forkMetadataSegmentSize := seg } .undef) =
      .ok (.mk { freshCore with
                   forkMetadataSegmentSize := seg,
                   contentAddress := some (store (c7HeaderBytes seg)) } (.defined .nil),
           store (c7HeaderBytes seg), true, 1) := by
  have h1 : MantarayNode.recursiveSave J store
      (.mk { freshCore with forkMetadataSegmentSize := seg } .undef) =
      (MantarayNode.setContentAddress
        (.mk { freshCore with forkMetadataSegmentSize := seg } (.defined .nil))
        (some (store (c7HeaderBytes seg)))).bind
        (fun n₂ => .ok (n₂, store (c7HeaderBytes seg), true, 1)) := rfl
  rw [h1]
  simp only [MantarayNode.setContentAddress, assertReference,
    if_pos (Or.inl hstore), bindOk]
  rfl

/-- Witness for C7 (amended) with the concrete in-memory storage. -/
theorem c7_empty_dirty_node_saves_header_witness :
    MantarayNode.recursiveSave J0 c7Store
        (.mk { freshCore with forkMetadataSegmentSize := 0 } .undef) =
      .ok (.mk { freshCore with
                   forkMetadataSegmentSize := 0,
                   contentAddress := some (c7Store (c7HeaderBytes 0)) } (.defined .nil),
           c7Store (c7HeaderBytes 0), true, 1) :=
  c7_empty_dirty_node_saves_header J0 c7Store 0 (by decide)

/-! ## C10: clearing the entry leaves stale state -/

/-- **C10 counterexample.**  When the previously set entry was a 64-byte
(encrypted) reference, clearing it leaves `encEntry` set with `hasEntry`
unset, and a subsequent `serialize()` *fails* (`serializeFeatures` throws)
instead of emitting the stale entry bytes, refuting the claim for that
case. -/
theorem c10_clear_enc_entry_serialize_fails_cex :
    (do
      let n ← MantarayNode.fresh.setEntry (some (List.replicate 64 7))
      let n ← n.setEntry none
      MantarayNode.serialize J0 n) = .error .encEntryNoEntry := rfl

/-- **C10 (amended).**  For a node whose previously set entry is a 32-byte
(non-encrypted) reference, assigning `undefined` to `entry` only clears
`hasEntry`: the stale entry bytes, `encEntry` and `contentAddress` are
untouched, and a subsequent `serialize()` emits the stale entry bytes at
offset 64 although the serialized `hasEntry` flag bit is 0.  (When the
previous entry was 64 bytes, `serialize()` fails instead — see the
counterexample.) -/
theorem c10_clear_entry_keeps_stale_bytes (J : JsonCodec) (c : NodeCore) (e : JBytes)
    (hobf : c.obfuscationKey = null32Bytes) (hhas : c.hasEntry = true)
    (henc : c.encEntry = false) (hent : c.entry = some e) (hlen : e.length = 32)
    (hedge : c.isEdge = false) (hmeta : c.nodeMetadata = none) :
    (MantarayNode.mk c .undef).setEntry none =
        .ok (.mk { c with hasEntry := false } .undef) ∧
      ({ c with hasEntry := false } : NodeCore).entry = some e ∧
      ({ c with hasEntry := false } : NodeCore).encEntry = false ∧
      ({ c with hasEntry := false } : NodeCore).contentAddress = c.contentAddress ∧
      ∃ bytes, MantarayNode.serialize J (.mk { c with hasEntry := false } .undef) =
          .ok (.mk { c with hasEntry := false } (.defined .nil), bytes) ∧
        jsSlice bytes 64 96 = e ∧ bytes.getD 63 0 % 2 = 0 ∧ bytes.length = 96 := by
  refine ⟨rfl, by simp [hent], by simp [henc], rfl, ?_⟩
  refine ⟨c7HeaderBytes c.forkMetadataSegmentSize ++ e, ?_, ?_, ?_, ?_⟩
  · simp only [MantarayNode.serialize, MantarayNode.serializeBody, MantarayNode.forks,
      MantarayNode.core, MantarayNode.withForks, MantarayNode.serializeFeatures,
      hent, hedge, henc, hmeta, hobf, bindOk, Option.getD_some, Bool.false_eq_true,
      if_false, Bool.false_and, Bool.not_false, encryptDecrypt_zero_key]
    simp [c7HeaderBytes, serializeFeaturesByte, null32Bytes, versionHash10]
  · show jsSlice (c7HeaderBytes c.forkMetadataSegmentSize ++ e) 64 96 = e
    simp only [jsSlice]
    rw [show (64 : Nat) = (c7HeaderBytes c.forkMetadataSegmentSize).length from rfl,
      List.drop_left]
    rw [show (96 : Nat) - (c7HeaderBytes c.forkMetadataSegmentSize).length = 32 from rfl]
    rw [← hlen]
    exact List.take_length e
  · show (c7HeaderBytes c.forkMetadataSegmentSize ++ e).getD 63 0 % 2 = 0
    rw [List.getD_append _ _ 0 63 (by rw [show (c7HeaderBytes
      c.forkMetadataSegmentSize).length = 64 from rfl]; omega)]
    rw [show (c7HeaderBytes c.forkMetadataSegmentSize).getD 63 0 =
      serializeFeaturesByte false false false c.forkMetadataSegmentSize from rfl]
    simp only [serializeFeaturesByte, Nat.shiftLeft_eq, pow_one,
      Bool.false_eq_true, if_false, Nat.add_zero]
    omega
  · show (c7HeaderBytes c.forkMetadataSegmentSize ++ e).length = 96
    rw [List.length_append, hlen,
      show (c7HeaderBytes c.forkMetadataSegmentSize).length = 64 from rfl]

/-! ## C6: incremental save -/

mutual

/-- A node is fully saved: every node of the tree carries a
`contentAddress` and a defined fork map (exactly the state `recursiveSave`
leaves behind). -/
def MantarayNode.allClean : MantarayNode → Bool
  | .mk core forks =>
    core.contentAddress.isSome &&
      (match forks with
       | .undef => false
       | .defined l => ForkList.allClean l)

def ForkList.allClean : ForkList → Bool
  | .nil => true
  | .cons _ _ c rest => MantarayNode.allClean c && ForkList.allClean rest

end

theorem setContentAddress_some_spec {n n' : MantarayNode} {r : JBytes}
    (h : n.setContentAddress (some r) = .ok n') :
    n' = n.mapCore fun c => { c with contentAddress := some r } := by
  simp only [MantarayNode.setContentAddress] at h
  cases har : assertReference r with
  | error e =>
    rw [har, bindErr] at h
    exact Except.noConfusion h
  | ok u =>
    rw [har, bindOk] at h
    simp only [Except.ok.injEq] at h
    exact h.symm

theorem serializeBody_forks (J : JsonCodec) (n n' : MantarayNode) (bytes : JBytes)
    (h : MantarayNode.serializeBody J n = .ok (n', bytes)) :
    n'.forks = n.forks := by
  simp only [MantarayNode.serializeBody] at h
  cases hedge : n.core.isEdge with
  | false =>
    rw [hedge] at h
    simp only [Bool.false_eq_true, if_false, bindOk] at h
    cases hfeat : n.serializeFeatures with
    | error e =>
      rw [hfeat, bindErr] at h
      exact Except.noConfusion h
    | ok f =>
      rw [hfeat, bindOk] at h
      simp only [Except.ok.injEq, Prod.mk.injEq] at h
      rw [← h.1]
  | true =>
    rw [hedge] at h
    simp only [if_pos, bindOk] at h
    cases hig : ForkList.indexAndGrow J n.forksListD (List.replicate 32 0)
        n.core.forkMetadataSegmentSize with
    | error e =>
      rw [hig, bindErr] at h
      exact Except.noConfusion h
    | ok pr =>
      obtain ⟨bitmap, seg⟩ := pr
      rw [hig] at h
      simp only [bindOk] at h
      cases hfl : serializeForksLoop J n.forksListD seg (indexBytesForEachList bitmap) with
      | error e =>
        rw [hfl, bindErr] at h
        exact Except.noConfusion h
      | ok fb =>
        rw [hfl] at h
        simp only [bindOk] at h
        cases hfeat : (n.mapCore fun c =>
            { c with forkMetadataSegmentSize := seg }).serializeFeatures with
        | error e =>
          rw [hfeat, bindErr] at h
          exact Except.noConfusion h
        | ok f =>
          rw [hfeat, bindOk] at h
          simp only [Except.ok.injEq, Prod.mk.injEq] at h
          rw [← h.1]
          match n with
          | .mk c fks => rfl

theorem serialize_forks (J : JsonCodec) (n n' : MantarayNode) (bytes : JBytes)
    (h : MantarayNode.serialize J n = .ok (n', bytes)) :
    n'.forks = .defined n.forksListD := by
  simp only [MantarayNode.serialize] at h
  cases hf : n.forks with
  | undef =>
    rw [hf] at h
    simp only [] at h
    cases he : n.core.entry with
    | none =>
      rw [he] at h
      exact Except.noConfusion h
    | some e =>
      rw [he] at h
      simp only [bindOk] at h
      have := serializeBody_forks J _ _ _ h
      rw [this]
      match n with
      | .mk c fks =>
        simp only [MantarayNode.forks] at hf
        subst hf
        simp [MantarayNode.withForks, MantarayNode.forks, MantarayNode.forksListD]
  | defined l =>
    rw [hf] at h
    simp only [bindOk] at h
    have := serializeBody_forks J _ _ _ h
    rw [this, hf]
    simp [MantarayNode.forksListD, hf]

theorem allClean_withForksDefined_ca (core : NodeCore) (l : ForkList) (r : JBytes)
    (hl : ForkList.allClean l = true) :
    MantarayNode.allClean (.mk { core with contentAddress := some r } (.defined l)) = true := by
  simp [MantarayNode.allClean, hl]

mutual

theorem recursiveSave_post (J : JsonCodec) (store : JBytes → JBytes) :
    ∀ (n : MantarayNode) (n' : MantarayNode) (ref : JBytes) (ch : Bool) (cnt : Nat),
      MantarayNode.recursiveSave J store n = .ok (n', ref, ch, cnt) →
      MantarayNode.allClean n' = true ∧ n'.core.contentAddress = some ref
  | .mk core .undef, n', ref, ch, cnt, h => by
    simp only [MantarayNode.recursiveSave] at h
    cases hca : core.contentAddress with
    | some ca =>
      rw [hca] at h
      simp only [Except.ok.injEq, Prod.mk.injEq] at h
      obtain ⟨h1, h2, _, _⟩ := h
      subst h1 h2
      exact ⟨by simp [MantarayNode.allClean, ForkList.allClean, hca], by
        simp [MantarayNode.core, hca]⟩
    | none =>
      rw [hca] at h
      simp only [] at h
      cases hs : MantarayNode.serialize J (.mk core (.defined .nil)) with
      | error e =>
        rw [hs, bindErr] at h
        exact Except.noConfusion h
      | ok pr =>
        obtain ⟨n₁, bytes⟩ := pr
        rw [hs] at h
        simp only [bindOk] at h
        cases hset : n₁.setContentAddress (some (store bytes)) with
        | error e =>
          rw [hset, bindErr] at h
          exact Except.noConfusion h
        | ok n₂ =>
          rw [hset, bindOk] at h
          simp only [Except.ok.injEq, Prod.mk.injEq] at h
          obtain ⟨h1, h2, _, _⟩ := h
          subst h1 h2
          have hforks : n₁.forks = .defined ForkList.nil := by
            have := serialize_forks J _ _ _ hs
            simpa [MantarayNode.forksListD, MantarayNode.forks] using this
          have hn₂ := setContentAddress_some_spec hset
          subst hn₂
          match n₁, hforks with
          | .mk c₁ _, rfl =>
            exact ⟨by simp [MantarayNode.mapCore, MantarayNode.allClean,
                ForkList.allClean],
              by simp [MantarayNode.mapCore, MantarayNode.core]⟩
  | .mk core (.defined l), n', ref, ch, cnt, h => by
    simp only [MantarayNode.recursiveSave] at h
    cases hsa : ForkList.saveAll J store l with
    | error e =>
      rw [hsa, bindErr] at h
      exact Except.noConfusion h
    | ok pr =>
      obtain ⟨l', anyChanged, cnt'⟩ := pr
      rw [hsa] at h
      simp only [bindOk] at h
      have hl' : ForkList.allClean l' = true := saveAll_post J store l l' anyChanged cnt' hsa
      cases hca : core.contentAddress with
      | some ca =>
        cases hch : anyChanged with
        | false =>
          rw [hca, hch] at h
          simp only [Except.ok.injEq, Prod.mk.injEq] at h
          obtain ⟨h1, h2, _, _⟩ := h
          subst h1 h2
          exact ⟨by simp [MantarayNode.allClean, hca, hl'], by simp [MantarayNode.core, hca]⟩
        | true =>
          rw [hca, hch] at h
          simp only [] at h
          cases hs : MantarayNode.serialize J (.mk core (.defined l')) with
          | error e =>
            rw [hs, bindErr] at h
            exact Except.noConfusion h
          | ok pr₂ =>
            obtain ⟨n₁, bytes⟩ := pr₂
            rw [hs] at h
            simp only [bindOk] at h
            cases hset : n₁.setContentAddress (some (store bytes)) with
            | error e =>
              rw [hset, bindErr] at h
              exact Except.noConfusion h
            | ok n₂ =>
              rw [hset, bindOk] at h
              simp only [Except.ok.injEq, Prod.mk.injEq] at h
              obtain ⟨h1, h2, _, _⟩ := h
              subst h1 h2
              have hforks : n₁.forks = .defined l' := by
                have := serialize_forks J _ _ _ hs
                simpa [MantarayNode.forksListD, MantarayNode.forks] using this
              have hn₂ := setContentAddress_some_spec hset
              subst hn₂
              match n₁, hforks with
              | .mk c₁ _, rfl =>
                exact ⟨by simp [MantarayNode.mapCore, MantarayNode.allClean, hl'],
                  by simp [MantarayNode.mapCore, MantarayNode.core]⟩
      | none =>
        rw [hca] at h
        simp only [] at h
        cases hs : MantarayNode.serialize J (.mk core (.defined l')) with
        | error e =>
          rw [hs, bindErr] at h
          exact Except.noConfusion h
        | ok pr₂ =>
          obtain ⟨n₁, bytes⟩ := pr₂
          rw [hs] at h
          simp only [bindOk] at h
          cases hset : n₁.setContentAddress (some (store bytes)) with
          | error e =>
            rw [hset, bindErr] at h
            exact Except.noConfusion h
          | ok n₂ =>
            rw [hset, bindOk] at h
            simp only [Except.ok.injEq, Prod.mk.injEq] at h
            obtain ⟨h1, h2, _, _⟩ := h
            subst h1 h2
            have hforks : n₁.forks = .defined l' := by
              have := serialize_forks J _ _ _ hs
              simpa [MantarayNode.forksListD, MantarayNode.forks] using this
            have hn₂ := setContentAddress_some_spec hset
            subst hn₂
            match n₁, hforks with
            | .mk c₁ _, rfl =>
              exact ⟨by simp [MantarayNode.mapCore, MantarayNode.allClean, hl'],
                by simp [MantarayNode.mapCore, MantarayNode.core]⟩

theorem saveAll_post (J : JsonCodec) (store : JBytes → JBytes) :
    ∀ (l : ForkList) (l' : ForkList) (chg : Bool) (cnt : Nat),
      ForkList.saveAll J store l = .ok (l', chg, cnt) →
      ForkList.allClean l' = true
  | .nil, l', chg, cnt, h => by
    simp only [ForkList.saveAll, Except.ok.injEq, Prod.mk.injEq] at h
    obtain ⟨h1, _, _⟩ := h
    subst h1
    rfl
  | .cons k p c rest, l', chg, cnt, h => by
    simp only [ForkList.saveAll] at h
    cases hc : MantarayNode.recursiveSave J store c with
    | error e =>
      rw [hc, bindErr] at h
      exact Except.noConfusion h
    | ok pr =>
      obtain ⟨c', ref, chc, cntc⟩ := pr
      rw [hc] at h
      simp only [bindOk] at h
      cases hr : ForkList.saveAll J store rest with
      | error e =>
        rw [hr, bindErr] at h
        exact Except.noConfusion h
      | ok pr₂ =>
        obtain ⟨rest', chr, cntr⟩ := pr₂
        rw [hr] at h
        simp only [bindOk, Except.ok.injEq, Prod.mk.injEq] at h
        obtain ⟨h1, _, _⟩ := h
        subst h1
        have hcc := recursiveSave_post J store c c' ref chc cntc hc
        have hrr := saveAll_post J store rest rest' chr cntr hr
        simp [ForkList.allClean, hcc.1, hrr]

end

mutual

theorem recursiveSave_clean (J : JsonCodec) (store : JBytes → JBytes) :
    ∀ (n : MantarayNode), MantarayNode.allClean n = true →
      ∃ ca, n.core.contentAddress = some ca ∧
        MantarayNode.recursiveSave J store n = .ok (n, ca, false, 0)
  | .mk core .undef, h => by
    simp [MantarayNode.allClean] at h
  | .mk core (.defined l), h => by
    simp only [MantarayNode.allClean, Bool.and_eq_true] at h
    obtain ⟨hca, hl⟩ := h
    cases hcav : core.contentAddress with
    | none => simp [hcav] at hca
    | some ca =>
      refine ⟨ca, by simp [MantarayNode.core, hcav], ?_⟩
      simp only [MantarayNode.recursiveSave]
      rw [saveAll_clean J store l hl]
      simp only [bindOk]
      rw [hcav]

theorem saveAll_clean (J : JsonCodec) (store : JBytes → JBytes) :
    ∀ (l : ForkList), ForkList.allClean l = true →
      ForkList.saveAll J store l = .ok (l, false, 0)
  | .nil, _ => rfl
  | .cons k p c rest, h => by
    simp only [ForkList.allClean, Bool.and_eq_true] at h
    obtain ⟨hc, hrest⟩ := h
    obtain ⟨ca, hca, hrec⟩ := recursiveSave_clean J store c hc
    simp only [ForkList.saveAll]
    rw [hrec]
    simp only [bindOk]
    rw [saveAll_clean J store rest hrest]
    simp only [bindOk]
    rfl

end

/-- **C6.**  If no mutation occurs between two `recursiveSave` calls on
the same root over the same storage, the second save invokes
`storage.save` zero times (every subtree reports `unchanged`) and returns
the root reference cached by the first save. -/
theorem c6_incremental_save (J : JsonCodec) (store : JBytes → JBytes)
    (n n' : MantarayNode) (ref : JBytes) (ch : Bool) (cnt : Nat)
    (h : MantarayNode.recursiveSave J store n = .ok (n', ref, ch, cnt)) :
    MantarayNode.recursiveSave J store n' = .ok (n', ref, false, 0) := by
  obtain ⟨hclean, hca⟩ := recursiveSave_post J store n n' ref ch cnt h
  obtain ⟨ca, hca', hrec⟩ := recursiveSave_clean J store n' hclean
  rw [hca] at hca'
  simp only [Option.some.injEq] at hca'
  rw [← hca'] at hrec
  exact hrec

/-- The C6 witness node before its first save. -/
def c6WitNode : MantarayNode :=
  .mk { freshCore with hasEntry := true, entry := some (List.replicate 32 7) } (.undef)

/-- The C6 witness node after its first save. -/
def c6WitSaved : MantarayNode :=
  .mk { freshCore with
          hasEntry := true,
          entry := some (List.replicate 32 7),
          contentAddress := some (List.replicate 32 9) } (.defined .nil)

/-- Witness for C6: a concrete first save (one submission), after which
the second save submits nothing and returns the cached reference. -/
theorem c6_incremental_save_witness :
    MantarayNode.recursiveSave J0 c7Store c6WitSaved =
      .ok (c6WitSaved, List.replicate 32 9, false, 0) :=
  c6_incremental_save J0 c7Store c6WitNode c6WitSaved (List.replicate 32 9) true 1 rfl

/-! ## C1: structural equality after `deserialize(serialize(n))` -/

/-- The `(key, prefix)` pairs of a fork map (`{}` when undefined). -/
def ForkList.keyPfxPairs : ForkList → List (Nat × JBytes)
  | .nil => []
  | .cons k p _ rest => (k, p) :: ForkList.keyPfxPairs rest

def forkEntriesOf : Forks → List (Nat × JBytes)
  | .undef => []
  | .defined l => l.keyPfxPairs

/-- The structural comparison claimed for `deserialize(serialize(n))`:
same `hasEntry`, `encEntry`, `isEdge` flags, same
`forkMetadataSegmentSize`, byte-equal entry and obfuscation key, equal
node metadata, and the same prefix bytes under every fork key. -/
def shallowStructEq (a b : MantarayNode) : Prop :=
  a.core.hasEntry = b.core.hasEntry ∧ a.core.encEntry = b.core.encEntry ∧
    a.core.isEdge = b.core.isEdge ∧
    a.core.forkMetadataSegmentSize = b.core.forkMetadataSegmentSize ∧
    a.core.entry = b.core.entry ∧ a.core.obfuscationKey = b.core.obfuscationKey ∧
    a.core.nodeMetadata = b.core.nodeMetadata ∧
    forkEntriesOf a.forks = forkEntriesOf b.forks

instance (a b : MantarayNode) : Decidable (shallowStructEq a b) := by
  unfold shallowStructEq
  infer_instance

/-! ### The v0.2 deserializer (`src/node.ts` lines 560-637) -/

def Node02.mapCore : Node02 → (Node02Core → Node02Core) → Node02
  | .mk c f, g => .mk (g c) f

def Node02.withForks : Node02 → Forks02 → Node02
  | .mk c _, f => .mk c f

/-- v0.2 `makeValue`: `if (!this.type) this.type = value; this.type |= value`
(JS `!0` is also true, so an absent or zero type becomes exactly the flag). -/
def Node02.makeValue (n : Node02) : Node02 :=
  n.mapCore fun c => { c with typ := some ((c.typ.getD 0) ||| 2) }

/-- v0.2 `makeEdge`. -/
def Node02.makeEdge (n : Node02) : Node02 :=
  n.mapCore fun c => { c with typ := some ((c.typ.getD 0) ||| 4) }

/-- v0.2 `makeWithMetadata`. -/
def Node02.makeWithMetadata (n : Node02) : Node02 :=
  n.mapCore fun c => { c with typ := some ((c.typ.getD 0) ||| 16) }

/-- The v0.2 `setEntry` setter: `checkReference`, store, `makeValue`
unless the entry is all zero bytes, `makeDirty`. -/
def Node02.setEntry (n : Node02) (e : JBytes) : Except MErr Node02 := do
  assertReference e
  let n := n.mapCore fun c => { c with entry := some e }
  let n := if e = List.replicate e.length 0 then n else n.makeValue
  .ok (n.mapCore fun c => { c with contentAddress := none })

/-- The v0.2 `setObfuscationKey` setter. -/
def Node02.setObfuscationKey (n : Node02) (k : JBytes) : Except MErr Node02 :=
  if k.length = 32 then
    .ok ((n.mapCore fun c => { c with obfuscationKey := some k }).mapCore
      fun c => { c with contentAddress := none })
  else .error .invalidObfuscationKey

/-- The v0.2 `setType` setter. -/
def Node02.setType (n : Node02) (t : Nat) : Except MErr Node02 :=
  if t > 255 then .error .typeTooBig
  else .ok (n.mapCore fun c => { c with typ := some t })

/-- The v0.2 `setMetadata` setter, including the website-document special
case (JS truthiness of a string value: non-empty). -/
def Node02.setMetadata (n : Node02) (m : MetaMap) : Node02 :=
  let n := n.mapCore fun c => { c with metadata := some m }
  let n := n.makeWithMetadata
  let wid := (List.lookup "website-index-document" m).getD ""
  let wed := (List.lookup "website-error-document" m).getD ""
  let n := if wid ≠ "" ∨ wed ≠ "" then n.makeValue else n
  n.mapCore fun c => { c with contentAddress := none }

/-- `utils.fromBigEndian` (used with 2-byte big-endian slices; the source
throws on empty input, which its call sites rule out by length checks). -/
def fromBigEndian (bytes : JBytes) : Nat :=
  (List.range bytes.length).foldl
    (fun acc i => acc ||| ((bytes.getD (bytes.length - 1 - i) 0) <<< (8 * i))) 0

def nodeTypeIsWithMetadataType (t : Nat) : Bool := (t &&& 16) == 16

/-- `this.forks[key] = fork` for v0.2 fork maps. -/
def ForkList02.set : ForkList02 → Nat → JBytes → Node02 → ForkList02
  | .nil, key, p, c => .cons key p c .nil
  | .cons k p0 c0 rest, key, p, c =>
    if key = k then .cons k p c rest
    else if key < k then .cons key p c (.cons k p0 c0 rest)
    else .cons k p0 c0 (ForkList02.set rest key p c)

/-- v0.2 `MantarayFork.deserialize` (`src/node.ts` lines 133-177). -/
def fork02Deserialize (J : JsonCodec) (data : JBytes) (obfuscationKey : JBytes)
    (withMetadata : Option (Nat × Nat)) : Except MErr (JBytes × Node02) := do
  let nodeType := data.getD 0 0
  let prefixLength := data.getD 1 0
  if prefixLength = 0 ∨ prefixLength > 30 then .error .badForkPfxLength
  else do
    let pfx := jsSlice data 2 (2 + prefixLength)
    let node ← Node02.setObfuscationKey Node02.fresh obfuscationKey
    let node ←
      match withMetadata with
      | some (refBytesSize, metadataByteSize) =>
        if metadataByteSize > 0 then do
          let node ← node.setEntry (jsSlice data 32 (32 + refBytesSize))
          let startMetadata := 32 + refBytesSize + 2
          let metadataBytes := jsSlice data startMetadata (startMetadata + metadataByteSize)
          -- JSON.parse throws on malformed metadata (not caught here)
          match J.dec metadataBytes with
          | none => .error .jsonParseError
          | some m => .ok (node.setMetadata m)
        else .ok node
      | none => node.setEntry (jsSliceFrom data 32)
    let node ← node.setType nodeType
    .ok (pfx, node)

/-- The fork-parsing loop of v0.2 `deserialize`: per present byte, read the
fork's node type, compute the (possibly metadata-extended) record size with
its length checks, and deserialize the record. -/
def deserialize02ForksLoop (J : JsonCodec) (data : JBytes) (refBytesSize : Nat)
    (obfuscationKey : JBytes) :
    List Nat → Nat → ForkList02 → Except MErr (ForkList02 × Nat)
  | [], offset, acc => .ok (acc, offset)
  | b :: bs, offset, acc =>
    if data.length < offset + 1 then .error .forkDataShort
    else
      let nodeType := data.getD offset 0
      let nodeForkSize := 32 + refBytesSize
      if nodeTypeIsWithMetadataType nodeType then
        if data.length < offset + 32 + refBytesSize + 2 then .error .forkDataShort
        else do
          let metadataByteSize := fromBigEndian
            (jsSlice data (offset + nodeForkSize) (offset + nodeForkSize + 2))
          let nodeForkSize := nodeForkSize + 2 + metadataByteSize
          let (p, c) ← fork02Deserialize J (jsSlice data offset (offset + nodeForkSize))
            obfuscationKey (some (refBytesSize, metadataByteSize))
          deserialize02ForksLoop J data refBytesSize obfuscationKey bs
            (offset + nodeForkSize) (acc.set b p c)
      else
        if data.length < offset + 32 + refBytesSize then .error .forkDataShort
        else do
          let (p, c) ← fork02Deserialize J (jsSlice data offset (offset + nodeForkSize))
            obfuscationKey none
          deserialize02ForksLoop J data refBytesSize obfuscationKey bs
            (offset + nodeForkSize) (acc.set b p c)

/-- v0.2 `MantarayNode.deserialize` (`src/node.ts` lines 560-637),
mutating `self`.  The root `nodeType` is not persisted by the format, so
the loader sets the edge flag iff the fork index bitmap is non-zero. -/
def Node02.deserialize (J : JsonCodec) (self : Node02) (data : JBytes) :
    Except MErr Node02 := do
  if data.length < 64 then .error .tooShort
  else do
    let obfuscationKey := jsSlice data 0 32
    let self := self.mapCore fun c => { c with obfuscationKey := some obfuscationKey }
    let data := encryptDecrypt obfuscationKey data obfuscationKey.length
    let versionHash := jsSlice data 32 63
    if versionHash = versionHash01 then .error .notImplemented
    else if versionHash = versionHash02 then do
      let refBytesSize := data.getD 63 0
      let entrySlice := jsSlice data 64 (64 + refBytesSize)
      -- FIXME branch of the source: a zero refsize denotes a zero entry
      let entry := if refBytesSize = 0 then List.replicate 32 0 else entrySlice
      let self ← self.setEntry entry
      let offset := 64 + refBytesSize
      let indexBytes := jsSlice data offset (offset + 32)
      let self := if indexBytes ≠ List.replicate 32 0 then self.makeEdge else self
      let self := self.withForks (.defined .nil)
      -- IndexBytes.setBytes checks the length
      if indexBytes.length ≠ 32 then .error .badIndexBytes
      else do
        let offset := offset + 32
        let (fl, _) ← deserialize02ForksLoop J data refBytesSize obfuscationKey
          (indexBytesForEachList indexBytes) offset .nil
        .ok (self.withForks (.defined fl))
    else .error .badVersion

/-- The edge bit of a v0.2 node type. -/
def v02EdgeBit (n : Node02) : Bool := ((n.core.typ.getD 0) &&& 4) == 4

/-- The fork index bitmap stored in a serialized v0.2 node: 32 bytes after
the header and the entry, on the decrypted buffer. -/
def v02IndexBitmap (data : JBytes) : JBytes :=
  let obf := jsSlice data 0 32
  let d := encryptDecrypt obf data obf.length
  jsSlice d (64 + d.getD 63 0) (64 + d.getD 63 0 + 32)

theorem lor_four_land_four (v : Nat) : (v ||| 4) &&& 4 = 4 := by
  apply Nat.eq_of_testBit_eq
  intro i
  simp only [Nat.testBit_and, Nat.testBit_or]
  rcases eq_or_ne i 2 with h | h
  · subst h
    have h42 : Nat.testBit 4 2 = true := rfl
    simp [h42]
  · have h4 : (4 : Nat) = 2 ^ 2 := rfl
    rw [h4, Nat.testBit_two_pow]
    simp [Ne.symm h]

theorem setEntry02_typ (n n' : Node02) (e : JBytes) (hty : n.core.typ = none)
    (h : n.setEntry e = .ok n') : n'.core.typ = none ∨ n'.core.typ = some 2 := by
  simp only [Node02.setEntry] at h
  cases har : assertReference e with
  | error er =>
    rw [har, bindErr] at h
    exact Except.noConfusion h
  | ok u =>
    rw [har, bindOk] at h
    by_cases hz : e = List.replicate e.length 0
    · rw [if_pos hz] at h
      simp only [Except.ok.injEq] at h
      subst h
      left
      match n with
      | .mk c f => simpa [Node02.mapCore, Node02.core] using hty
    · rw [if_neg hz] at h
      simp only [Except.ok.injEq] at h
      subst h
      right
      match n with
      | .mk c f =>
        simp only [Node02.core] at hty
        simp [Node02.mapCore, Node02.core, Node02.makeValue, hty]

/-- The v0.2 half of C1: on a fresh receiver, a successful v0.2
`deserialize` sets the edge bit of the node type exactly when the
serialized fork index bitmap is non-zero. -/
theorem c1_v02_edge_iff_bitmap (J : JsonCodec) (data : JBytes) (m : Node02)
    (h : Node02.deserialize J Node02.fresh data = .ok m) :
    v02EdgeBit m = decide (v02IndexBitmap data ≠ List.replicate 32 0) := by
  simp only [Node02.deserialize] at h
  by_cases hlen : data.length < 64
  · rw [if_pos hlen] at h
    exact Except.noConfusion h
  · rw [if_neg hlen] at h
    by_cases hv1 : jsSlice (encryptDecrypt (jsSlice data 0 32) data
        (jsSlice data 0 32).length) 32 63 = versionHash01
    · rw [if_pos hv1] at h
      exact Except.noConfusion h
    · rw [if_neg hv1] at h
      by_cases hv2 : jsSlice (encryptDecrypt (jsSlice data 0 32) data
          (jsSlice data 0 32).length) 32 63 = versionHash02
      · rw [if_pos hv2] at h
        cases hse : Node02.setEntry
            (Node02.fresh.mapCore fun c => { c with obfuscationKey := some (jsSlice data 0 32) })
            (if (encryptDecrypt (jsSlice data 0 32) data (jsSlice data 0 32).length).getD 63 0 = 0
             then List.replicate 32 0
             else jsSlice (encryptDecrypt (jsSlice data 0 32) data (jsSlice data 0 32).length) 64
               (64 + (encryptDecrypt (jsSlice data 0 32) data (jsSlice data 0 32).length).getD 63 0)) with
        | error e =>
          rw [hse, bindErr] at h
          exact Except.noConfusion h
        | ok self₂ =>
          rw [hse, bindOk] at h
          have hty2 : self₂.core.typ = none ∨ self₂.core.typ = some 2 :=
            setEntry02_typ
              (Node02.fresh.mapCore fun c => { c with obfuscationKey := some (jsSlice data 0 32) })
              self₂ _ rfl hse
          by_cases hil : (jsSlice (encryptDecrypt (jsSlice data 0 32) data
              (jsSlice data 0 32).length)
              (64 + (encryptDecrypt (jsSlice data 0 32) data (jsSlice data 0 32).length).getD 63 0)
              (64 + (encryptDecrypt (jsSlice data 0 32) data (jsSlice data 0 32).length).getD 63 0 +
                32)).length ≠ 32
          · rw [if_pos hil] at h
            exact Except.noConfusion h
          · rw [if_neg hil] at h
            cases hloop : deserialize02ForksLoop J
                (encryptDecrypt (jsSlice data 0 32) data (jsSlice data 0 32).length)
                ((encryptDecrypt (jsSlice data 0 32) data (jsSlice data 0 32).length).getD 63 0)
                (jsSlice data 0 32)
                (indexBytesForEachList (jsSlice (encryptDecrypt (jsSlice data 0 32) data
                  (jsSlice data 0 32).length)
                  (64 + (encryptDecrypt (jsSlice data 0 32) data
                    (jsSlice data 0 32).length).getD 63 0)
                  (64 + (encryptDecrypt (jsSlice data 0 32) data
                    (jsSlice data 0 32).length).getD 63 0 + 32)))
                (64 + (encryptDecrypt (jsSlice data 0 32) data
                  (jsSlice data 0 32).length).getD 63 0 + 32)
                .nil with
            | error e =>
              rw [hloop, bindErr] at h
              exact Except.noConfusion h
            | ok pr =>
              obtain ⟨fl, off⟩ := pr
              rw [hloop] at h
              simp only [bindOk, Except.ok.injEq] at h
              subst h
              have hbitmap : v02IndexBitmap data = jsSlice (encryptDecrypt (jsSlice data 0 32)
                  data (jsSlice data 0 32).length)
                  (64 + (encryptDecrypt (jsSlice data 0 32) data
                    (jsSlice data 0 32).length).getD 63 0)
                  (64 + (encryptDecrypt (jsSlice data 0 32) data
                    (jsSlice data 0 32).length).getD 63 0 + 32) := rfl
              rw [hbitmap]
              by_cases hbm : jsSlice (encryptDecrypt (jsSlice data 0 32) data
                  (jsSlice data 0 32).length)
                  (64 + (encryptDecrypt (jsSlice data 0 32) data
                    (jsSlice data 0 32).length).getD 63 0)
                  (64 + (encryptDecrypt (jsSlice data 0 32) data
                    (jsSlice data 0 32).length).getD 63 0 + 32) ≠ List.replicate 32 0
              · rw [if_pos hbm]
                rw [decide_eq_true hbm]
                match self₂ with
                | .mk c₂ f₂ =>
                  simp only [v02EdgeBit, Node02.makeEdge, Node02.mapCore, Node02.core,
                    Node02.withForks, Option.getD_some]
                  rw [lor_four_land_four]
                  rfl
              · rw [if_neg hbm]
                have hbmeq : jsSlice (encryptDecrypt (jsSlice data 0 32) data
                    (jsSlice data 0 32).length)
                    (64 + (encryptDecrypt (jsSlice data 0 32) data
                      (jsSlice data 0 32).length).getD 63 0)
                    (64 + (encryptDecrypt (jsSlice data 0 32) data
                      (jsSlice data 0 32).length).getD 63 0 + 32) = List.replicate 32 0 := by
                  by_contra hc
                  exact hbm hc
                rw [hbmeq]
                simp only [ne_eq, not_true_eq_false, decide_False]
                match self₂, hty2 with
                | .mk c₂ f₂, hty2 =>
                  simp only [Node02.core] at hty2
                  rcases hty2 with hty2 | hty2 <;>
                    simp [v02EdgeBit, Node02.withForks, Node02.core, hty2]
      · rw [if_neg hv2] at h
        exact Except.noConfusion h

/-! ### The v1.0 roundtrip under well-formedness (C1, part A) -/

/-- The entries of a fork map, as `(key, prefix, child)` triples. -/
def ForkList.entries : ForkList → List (Nat × JBytes × MantarayNode)
  | .nil => []
  | .cons k p c rest => (k, p, c) :: ForkList.entries rest

/-- Keys strictly ascending (every key below all later keys), the order
in which JS enumerates the integer keys of the fork object. -/
def ForkList.strictAsc : ForkList → Bool
  | .nil => true
  | .cons k _ _ rest => rest.keys.all (fun k2 => decide (k < k2)) && ForkList.strictAsc rest

/-- Well-formedness of the fork entries of a serializable edge node:
byte-range keys, prefixes of at most 31 bytes, and a content address of
the entry length dictated by the parent's `encEntry` on every child. -/
def forkWf (encE : Bool) : ForkList → Bool
  | .nil => true
  | .cons k p c rest =>
    decide (k ≤ 255) && decide (p.length ≤ 31) &&
      (match c.core.contentAddress with
       | some r => decide (r.length = if encE then 64 else 32)
       | none => false) &&
      forkWf encE rest

theorem ForkList.mem_keys_of_mem_entries (l : ForkList) (k : Nat) (p : JBytes)
    (c : MantarayNode) (h : (k, p, c) ∈ l.entries) : k ∈ l.keys := by
  match l with
  | .nil => simp [ForkList.entries] at h
  | .cons k1 p1 c1 r =>
    simp only [ForkList.entries, List.mem_cons] at h
    rcases h with h1 | h1
    · exact List.mem_cons.mpr (Or.inl (congrArg Prod.fst h1))
    · exact List.mem_cons_of_mem _ (ForkList.mem_keys_of_mem_entries r k p c h1)

theorem ForkList.lookup_of_mem (L : ForkList) (k : Nat) (p : JBytes) (c : MantarayNode)
    (hL : L.strictAsc = true) (hmem : (k, p, c) ∈ L.entries) :
    L.lookup k = some (p, c) := by
  match L with
  | .nil => simp [ForkList.entries] at hmem
  | .cons k0 p0 c0 rest =>
    simp only [ForkList.entries, List.mem_cons] at hmem
    simp only [ForkList.strictAsc, Bool.and_eq_true, List.all_eq_true] at hL
    rcases hmem with hmem | hmem
    · rw [Prod.mk.injEq, Prod.mk.injEq] at hmem
      obtain ⟨hk, hp, hc⟩ := hmem
      subst hk
      simp [ForkList.lookup, hp, hc]
    · have hkmem : k ∈ rest.keys :=
        ForkList.mem_keys_of_mem_entries rest k p c hmem
      have hlt : k0 < k := by
        have := hL.1 k hkmem
        simpa using this
      simp only [ForkList.lookup]
      rw [if_neg (by omega)]
      exact ForkList.lookup_of_mem rest k p c hL.2 hmem

/-- `ForkList.set` with a key above every existing key appends at the end. -/
theorem ForkList.set_append (acc : ForkList) (k : Nat) (p : JBytes) (c : MantarayNode)
    (hgt : ∀ k0 ∈ acc.keys, k0 < k) :
    (acc.set k p c).keyPfxPairs = acc.keyPfxPairs ++ [(k, p)] ∧
      (acc.set k p c).keys = acc.keys ++ [k] := by
  match acc with
  | .nil => simp [ForkList.set, ForkList.keyPfxPairs, ForkList.keys]
  | .cons k0 p0 c0 rest =>
    have hk0 : k0 < k := hgt k0 (by simp [ForkList.keys])
    simp only [ForkList.set]
    rw [if_neg (by omega), if_neg (by omega)]
    have hrest : ∀ k1 ∈ rest.keys, k1 < k := fun k1 h1 =>
      hgt k1 (by simp [ForkList.keys, h1])
    have ih := ForkList.set_append rest k p c hrest
    simp [ForkList.keyPfxPairs, ForkList.keys, ih.1, ih.2]

/-! ### The fork index bitmap -/

theorem checkBytePresent_eq_testBit (bs : JBytes) (b : Nat) :
    IndexBytes.checkBytePresent bs b = Nat.testBit (bs.getD (b / 8) 0) (b % 8) := by
  simp only [IndexBytes.checkBytePresent]
  rw [Nat.and_one_is_mod, Nat.shiftRight_eq_div_pow, Nat.testBit_to_div_mod]
  have h2 : bs.getD (b / 8) 0 / 2 ^ (b % 8) % 2 < 2 := Nat.mod_lt _ (by norm_num)
  rw [decide_eq_decide]
  omega

theorem setByte_length (bs : JBytes) (b : Nat) :
    (IndexBytes.setByte bs b).length = bs.length := List.length_set bs _ _

theorem checkBytePresent_setByte_self (bs : JBytes) (b : Nat) (hlen : b / 8 < bs.length) :
    IndexBytes.checkBytePresent (IndexBytes.setByte bs b) b = true := by
  rw [checkBytePresent_eq_testBit]
  simp only [IndexBytes.setByte]
  rw [List.getD_eq_getElem?_getD, List.getElem?_set_self (by simpa using hlen)]
  simp only [Option.getD_some]
  rw [Nat.testBit_or, Nat.shiftLeft_eq, one_mul, Nat.testBit_two_pow]
  simp

theorem checkBytePresent_setByte_other (bs : JBytes) (b b2 : Nat) (hne : b2 ≠ b) :
    IndexBytes.checkBytePresent (IndexBytes.setByte bs b) b2 =
      IndexBytes.checkBytePresent bs b2 := by
  rw [checkBytePresent_eq_testBit, checkBytePresent_eq_testBit]
  simp only [IndexBytes.setByte]
  by_cases hby : b / 8 = b2 / 8
  · have hbit : b % 8 ≠ b2 % 8 := by
      intro hc
      apply hne
      omega
    by_cases hin : b / 8 < bs.length
    · rw [← hby, List.getD_eq_getElem?_getD, List.getElem?_set_self (by simpa using hin)]
      simp only [Option.getD_some]
      rw [List.getD_eq_getElem?_getD]
      rw [Nat.testBit_or, Nat.shiftLeft_eq, one_mul, Nat.testBit_two_pow]
      simp [hbit]
    · have hset : bs.set (b / 8) ((bs.getD (b / 8) 0) ||| (1 <<< (b % 8))) = bs := by
        apply List.set_eq_of_length_le
        omega
      rw [hset]
  · rw [List.getD_eq_getElem?_getD, List.getElem?_set_ne (by simpa using hby),
      ← List.getD_eq_getElem?_getD]

theorem checkBytePresent_foldl (ks : List Nat) :
    ∀ (bs : JBytes), bs.length = 32 → (∀ k ∈ ks, k ≤ 255) → ∀ b ≤ 255,
      IndexBytes.checkBytePresent (ks.foldl IndexBytes.setByte bs) b =
        (decide (b ∈ ks) || IndexBytes.checkBytePresent bs b) := by
  induction ks with
  | nil => intro bs _ _ b _; simp
  | cons k ks ih =>
    intro bs hlen hks b hb
    simp only [List.foldl_cons]
    rw [ih (IndexBytes.setByte bs k) (by rw [setByte_length]; exact hlen)
      (fun x hx => hks x (List.mem_cons_of_mem _ hx)) b hb]
    by_cases hbk : b = k
    · subst hbk
      rw [checkBytePresent_setByte_self bs b
        (by rw [hlen]; have := hks b (by simp); omega)]
      simp
    · rw [checkBytePresent_setByte_other bs k b hbk]
      simp [hbk]

theorem checkBytePresent_zeros (b : Nat) :
    IndexBytes.checkBytePresent (List.replicate 32 0) b = false := by
  rw [checkBytePresent_eq_testBit]
  have hz : (List.replicate 32 0).getD (b / 8) 0 = 0 := by
    by_cases h : b / 8 < 32
    · rw [List.getD_eq_getElem?_getD, List.getElem?_replicate, if_pos h]
      rfl
    · exact List.getD_eq_default _ _ (by simpa using Nat.le_of_not_lt h)
  rw [hz]
  exact Nat.zero_testBit _

/-- Setting exactly the bytes of a sorted duplicate-free list of keys into
a zero 32-byte bitmap and enumerating the present bytes gives the keys
back, in order. -/
theorem indexBytesForEachList_foldl (ks : List Nat) (hs : ks.Sorted (· < ·))
    (hk : ∀ k ∈ ks, k ≤ 255) :
    indexBytesForEachList (ks.foldl IndexBytes.setByte (List.replicate 32 0)) = ks := by
  unfold indexBytesForEachList
  have hcongr : ∀ b ∈ List.range 256,
      IndexBytes.checkBytePresent (ks.foldl IndexBytes.setByte (List.replicate 32 0)) b =
        decide (b ∈ ks) := by
    intro b hb
    rw [checkBytePresent_foldl ks (List.replicate 32 0) (by simp) hk b
      (by simpa using Nat.lt_succ_iff.mp (List.mem_range.mp hb)), checkBytePresent_zeros]
    simp
  rw [List.filter_congr hcongr]
  have hnd : ((List.range 256).filter (fun b => decide (b ∈ ks))).Nodup :=
    (List.nodup_range 256).filter _
  have hsf : ((List.range 256).filter (fun b => decide (b ∈ ks))).Sorted (· < ·) :=
    List.Sorted.filter _ (List.sorted_lt_range 256)
  apply List.eq_of_perm_of_sorted _ hsf hs
  rw [List.perm_ext_iff_of_nodup hnd hs.nodup]
  intro x
  simp only [List.mem_filter, List.mem_range, decide_eq_true_eq]
  exact ⟨fun h => h.2, fun h => ⟨by have := hk x h; omega, h⟩⟩

/-! ### Byte-layout helpers -/

theorem jsSlice_exact (pre mid post : JBytes) (a b : Nat) (ha : a = pre.length)
    (hb : b = a + mid.length) :
    jsSlice (pre ++ (mid ++ post)) a b = mid := by
  unfold jsSlice
  rw [ha, List.drop_left, hb, ha]
  rw [show pre.length + mid.length - pre.length = mid.length from by omega]
  exact List.take_left mid post

theorem jsSliceFrom_exact (pre post : JBytes) (a : Nat) (ha : a = pre.length) :
    jsSliceFrom (pre ++ post) a = post := by
  unfold jsSliceFrom
  rw [ha, List.drop_left]

theorem getD_at_append (pre : JBytes) (x : Nat) (rest : JBytes) (i : Nat)
    (hi : i = pre.length) : (pre ++ (x :: rest)).getD i 0 = x := by
  rw [List.getD_append_right _ _ _ _ (by omega), hi, Nat.sub_self]
  rfl

/-! ### The `nodeFeatures` byte is invertible for a segment size ≤ 31 -/

theorem featuresByte_roundtrip (hE encE dE : Bool) (seg : Nat) (hseg : seg ≤ 31) :
    (serializeFeaturesByte hE encE dE seg % 2 == 1) = hE ∧
      (serializeFeaturesByte hE encE dE seg >>> 1 % 2 == 1) = encE ∧
      (serializeFeaturesByte hE encE dE seg >>> 1 >>> 1 % 2 == 1) = dE ∧
      serializeFeaturesByte hE encE dE seg >>> 1 >>> 1 >>> 1 = seg := by
  have hfb : serializeFeaturesByte hE encE dE seg =
      8 * seg + (if dE then 4 else 0) + (if encE then 2 else 0) +
        (if hE then 1 else 0) := by
    rcases hE <;> rcases encE <;> rcases dE <;>
      simp [serializeFeaturesByte, Nat.shiftLeft_eq] <;> omega
  rw [hfb]
  rcases hE <;> rcases encE <;> rcases dE <;> refine ⟨?_, ?_, ?_, ?_⟩ <;>
    simp only [Bool.false_eq_true, if_true, if_false, Nat.shiftRight_eq_div_pow,
      pow_one] <;>
    first
      | exact beq_iff_eq.mpr (by omega)
      | exact beq_eq_false_iff_ne.mpr (by omega)
      | omega

/-! ### `indexAndGrow` and the metadata segment -/

theorem indexAndGrow_spec (J : JsonCodec) (l : ForkList) :
    ∀ (bm : JBytes) (seg : Nat) (bm2 : JBytes) (seg2 : Nat),
      ForkList.indexAndGrow J l bm seg = .ok (bm2, seg2) →
      bm2 = l.keys.foldl IndexBytes.setByte bm ∧ (seg ≤ 31 → seg2 ≤ 31) ∧
        ∀ k ∈ l.keys, k ≤ 255 := by
  match l with
  | .nil =>
    intro bm seg bm2 seg2 h
    simp only [ForkList.indexAndGrow, Except.ok.injEq, Prod.mk.injEq] at h
    refine ⟨h.1.symm, fun hs => h.2 ▸ hs, by simp [ForkList.keys]⟩
  | .cons k p c rest =>
    intro bm seg bm2 seg2 h
    simp only [ForkList.indexAndGrow] at h
    by_cases hk : k > 255
    · rw [if_pos hk] at h
      exact Except.noConfusion h
    · rw [if_neg hk] at h
      have step :
          ∀ (seg3 : Nat),
            ForkList.indexAndGrow J rest (IndexBytes.setByte bm k) seg3 =
              .ok (bm2, seg2) →
            (seg ≤ 31 → seg3 ≤ 31) →
            bm2 = (ForkList.keys (.cons k p c rest)).foldl IndexBytes.setByte bm ∧
              (seg ≤ 31 → seg2 ≤ 31) ∧
              ∀ k2 ∈ ForkList.keys (.cons k p c rest), k2 ≤ 255 := by
        intro seg3 hrec hs3
        obtain ⟨hbm, hseg, hkeys⟩ := indexAndGrow_spec J rest _ _ _ _ hrec
        refine ⟨by simpa [ForkList.keys, List.foldl_cons] using hbm,
          fun hs => hseg (hs3 hs), ?_⟩
        intro k2 hk2
        simp only [ForkList.keys, List.mem_cons] at hk2
        rcases hk2 with hk2 | hk2
        · omega
        · exact hkeys k2 hk2
      cases hmd : c.core.forkMetadata with
      | none =>
        simp only [hmd, bindOk] at h
        exact step seg h (fun hs => hs)
      | some m =>
        simp only [hmd] at h
        by_cases hbig : ((serializeMedata J m).length + 31) / 32 > seg
        · rw [if_pos hbig] at h
          by_cases hover : ((serializeMedata J m).length + 31) / 32 > 31
          · rw [if_pos hover, bindErr] at h
            exact Except.noConfusion h
          · rw [if_neg hover, bindOk] at h
            exact step _ h (fun _ => by omega)
        · rw [if_neg hbig, bindOk] at h
          exact step seg h (fun hs => hs)

theorem serializeMetadataInSegment_length (J : JsonCodec) (md : Option MetaMap)
    (seg : Nat) (mb : JBytes) (h : serializeMetadataInSegment J md seg = .ok mb) :
    mb.length = seg * 32 := by
  cases md with
  | none =>
    simp only [serializeMetadataInSegment, Except.ok.injEq] at h
    rw [← h, List.length_replicate]
  | some m =>
    simp only [serializeMetadataInSegment] at h
    by_cases hover : seg * 32 < (J.enc m).length
    · rw [if_pos hover] at h
      exact Except.noConfusion h
    · rw [if_neg hover] at h
      simp only [Except.ok.injEq] at h
      rw [← h, List.length_append, List.length_replicate]
      omega

/-! ### One fork record roundtrips -/

theorem fork_roundtrip (J : JsonCodec) (seg : Nat) (p : JBytes) (c : MantarayNode)
    (encE : Bool) (r : JBytes) (hp : p.length ≤ 31)
    (hca : c.core.contentAddress = some r)
    (hr : r.length = if encE then 64 else 32) (rec2 : JBytes)
    (hser : forkSerialize J seg p c = .ok rec2) :
    rec2.length = 32 + (if encE then 64 else 32) + seg * 32 ∧
      ∃ c2, forkDeserialize J rec2 encE = .ok (p, c2) := by
  simp only [forkSerialize, if_pos hp, hca] at hser
  have hpadlen : (p ++ List.replicate (31 - p.length) 0).length = 31 := by
    rw [List.length_append, List.length_replicate]
    omega
  -- the prefix-length byte and the prefix it makes `forkDeserialize` read
  set lenByte := (if c.core.isContinuousNode ∧ p.length = 31
    then (p.length % 256 + 1) % 256 else p.length % 256) with hlb
  have hlb31 : (lenByte > 31 → (31 : Nat) = p.length) ∧ (¬lenByte > 31 → lenByte = p.length) := by
    constructor
    · intro hgt
      rw [hlb] at hgt
      by_cases hcc : c.core.isContinuousNode ∧ p.length = 31
      · exact hcc.2.symm
      · rw [if_neg hcc, Nat.mod_eq_of_lt (by omega)] at hgt
        omega
    · intro hle
      rw [hlb] at hle ⊢
      by_cases hcc : c.core.isContinuousNode ∧ p.length = 31
      · rw [if_pos hcc] at hle
        simp [hcc.2] at hle
      · rw [if_neg hcc, Nat.mod_eq_of_lt (by omega)]
  -- the record bytes, with or without a metadata slot
  have main : ∀ (mb : JBytes), mb.length = seg * 32 →
      rec2 = lenByte :: ((p ++ List.replicate (31 - p.length) 0) ++ r) ++ mb →
      rec2.length = 32 + (if encE then 64 else 32) + seg * 32 ∧
        ∃ c2, forkDeserialize J rec2 encE = .ok (p, c2) := by
    intro mb hmb hrec
    have hreclen : rec2.length = 32 + r.length + seg * 32 := by
      rw [hrec]
      simp only [List.length_cons, List.length_append, hpadlen, hmb]
      omega
    constructor
    · rw [hreclen, hr]
    · -- run forkDeserialize on the explicit record
      have hhead : rec2.headD 0 = lenByte := by rw [hrec]; rfl
      have hplen : (if rec2.headD 0 > 31 then 31 else rec2.headD 0) = p.length := by
        rw [hhead]
        by_cases hgt : lenByte > 31
        · rw [if_pos hgt]
          exact (hlb31.1 hgt)
        · rw [if_neg hgt]
          exact (hlb31.2 hgt)
      have hpfx : jsSlice rec2 1 (1 + p.length) = p := by
        rw [hrec]
        have : lenByte :: ((p ++ List.replicate (31 - p.length) 0) ++ r) ++ mb =
            [lenByte] ++ (p ++ (List.replicate (31 - p.length) 0 ++ (r ++ mb))) := by
          simp [List.append_assoc]
        rw [this]
        exact jsSlice_exact [lenByte] p _ 1 (1 + p.length) rfl rfl
      have hcaslice : jsSlice rec2 32 (32 + (if encE then 64 else 32)) = r := by
        rw [hrec]
        have : lenByte :: ((p ++ List.replicate (31 - p.length) 0) ++ r) ++ mb =
            (lenByte :: (p ++ List.replicate (31 - p.length) 0)) ++ (r ++ mb) := by
          simp [List.append_assoc]
        rw [this]
        have hprelen : (lenByte :: (p ++ List.replicate (31 - p.length) 0)).length = 32 := by
          simp only [List.length_cons, hpadlen]
        exact jsSlice_exact _ r mb 32 _ hprelen.symm (by rw [hr])
      simp only [forkDeserialize, hplen, hpfx, hcaslice]
      have har : assertReference r = .ok () := by
        have hr32 : r.length = 32 ∨ r.length = 64 := by
          rcases encE <;> simp at hr <;> omega
        unfold assertReference
        rw [if_pos hr32]
      apply Exists.intro
      simp only [MantarayNode.setContentAddress, har, bindOk]
      rfl
  by_cases hsegpos : seg > 0
  · rw [if_pos hsegpos] at hser
    cases hmb : serializeMetadataInSegment J c.core.forkMetadata seg with
    | error e =>
      rw [hmb, bindErr] at hser
      exact Except.noConfusion hser
    | ok mb =>
      rw [hmb, bindOk] at hser
      simp only [Except.ok.injEq] at hser
      exact main mb (serializeMetadataInSegment_length J _ _ _ hmb) hser.symm
  · rw [if_neg hsegpos] at hser
    simp only [Except.ok.injEq] at hser
    have hseg0 : seg = 0 := by omega
    refine main [] (by simp [hseg0]) ?_
    rw [← hser]
    simp

/-! ### The fork serialization loop roundtrips against the parsing loop -/

theorem forksLoop_roundtrip (J : JsonCodec) (L : ForkList) (seg : Nat) (encE : Bool)
    (l : ForkList) :
    L.strictAsc = true → (∀ x ∈ l.entries, x ∈ L.entries) → l.strictAsc = true →
      forkWf encE l = true →
      ∀ (out : JBytes), serializeForksLoop J L seg l.keys = .ok out →
      ∀ (acc : ForkList),
        (∀ k0 ∈ acc.keys, ∀ k2 ∈ l.keys, k0 < k2) →
        out.length = l.keys.length * (32 + (if encE then 64 else 32) + seg * 32) ∧
          ∃ fl, fl.keyPfxPairs = acc.keyPfxPairs ++ l.keyPfxPairs ∧
            ∀ (pre post : JBytes),
              deserializeForksLoop J (pre ++ (out ++ post)) encE
                (32 + (if encE then 64 else 32) + seg * 32) l.keys pre.length acc =
                .ok (fl, pre.length + out.length) := by
  match l with
  | .nil =>
    intro _ _ _ _ out hout acc _
    simp only [ForkList.keys, serializeForksLoop, Except.ok.injEq] at hout
    subst hout
    refine ⟨by simp [ForkList.keys], acc, by simp [ForkList.keyPfxPairs], ?_⟩
    intro pre post
    simp [deserializeForksLoop, ForkList.keys]
  | .cons k p c rest =>
    intro hL hsub hasc hwf out hout acc hacc
    -- decompose the well-formedness of the head fork
    simp only [forkWf, Bool.and_eq_true, decide_eq_true_eq] at hwf
    obtain ⟨⟨⟨hk255, hp31⟩, hcam⟩, hwfr⟩ := hwf
    cases hca : c.core.contentAddress with
    | none => rw [hca] at hcam; exact absurd hcam (by simp)
    | some r =>
    rw [hca] at hcam
    simp only [decide_eq_true_eq] at hcam
    -- decompose the serialization of the head fork
    simp only [ForkList.keys, serializeForksLoop] at hout
    rw [ForkList.lookup_of_mem L k p c hL (hsub (k, p, c) (by
      simp [ForkList.entries]))] at hout
    simp only [] at hout
    cases hfs : forkSerialize J seg p c with
    | error e => rw [hfs, bindErr] at hout; exact Except.noConfusion hout
    | ok fb =>
    rw [hfs, bindOk] at hout
    cases hrest : serializeForksLoop J L seg rest.keys with
    | error e => rw [hrest, bindErr] at hout; exact Except.noConfusion hout
    | ok out2 =>
    rw [hrest, bindOk] at hout
    simp only [Except.ok.injEq] at hout
    subst hout
    -- the head record parses back to the same prefix
    obtain ⟨hfblen, c2, hfdes⟩ := fork_roundtrip J seg p c encE r hp31 hca hcam fb hfs
    -- strict ascent of the remaining keys
    simp only [ForkList.strictAsc, Bool.and_eq_true, List.all_eq_true] at hasc
    -- the induction hypothesis, at the grown prefix and accumulator
    have hsetk := ForkList.set_append acc k p c2 (fun k0 h0 =>
      hacc k0 h0 k (by simp [ForkList.keys]))
    have hih := forksLoop_roundtrip J L seg encE rest hL
      (fun x hx => hsub x (by simp [ForkList.entries, hx])) hasc.2 hwfr out2 hrest
      (acc.set k p c2) (by
        intro k0 h0 k2 h2
        rw [hsetk.2, List.mem_append] at h0
        rcases h0 with h0 | h0
        · exact hacc k0 h0 k2 (by simp [ForkList.keys, h2])
        · simp only [List.mem_singleton] at h0
          subst h0
          have := hasc.1 k2 h2
          simpa using this)
    obtain ⟨hlen2, fl, hpairs2, hdes2⟩ := hih
    set fs := 32 + (if encE then 64 else 32) + seg * 32 with hfsdef
    constructor
    · simp only [List.length_append, ForkList.keys, List.length_cons]
      rw [hfblen, hlen2, Nat.succ_mul]
      omega
    · refine ⟨fl, ?_, ?_⟩
      · rw [hpairs2, hsetk.1]
        simp [ForkList.keyPfxPairs]
      · intro pre post
        -- one parsing step, then the induction hypothesis
        have hdes2i := hdes2 (pre ++ fb) post
        have hdata : pre ++ ((fb ++ out2) ++ post) = (pre ++ fb) ++ (out2 ++ post) := by
          simp [List.append_assoc]
        have hshort : ¬ (pre ++ ((fb ++ out2) ++ post)).length < pre.length + fs := by
          simp only [List.length_append]
          omega
        simp only [ForkList.keys, deserializeForksLoop]
        rw [if_neg hshort]
        have hslice : jsSlice (pre ++ ((fb ++ out2) ++ post)) pre.length
            (pre.length + fs) = fb := by
          have : pre ++ ((fb ++ out2) ++ post) = pre ++ (fb ++ (out2 ++ post)) := by
            simp [List.append_assoc]
          rw [this]
          exact jsSlice_exact pre fb _ pre.length (pre.length + fs) rfl (by rw [hfblen])
        rw [hslice, hfdes, bindOk]
        simp only []
        rw [hdata]
        have hoff : (pre ++ fb).length = pre.length + fs := by
          rw [List.length_append, hfblen]
        rw [hoff] at hdes2i
        rw [show pre.length + (fb ++ out2).length = pre.length + fs + out2.length from by
          rw [List.length_append, hfblen]
          omega]
        exact hdes2i

theorem jsSlice_take (x : JBytes) (b : Nat) : jsSlice x 0 b = x.take b := by
  unfold jsSlice
  rw [List.drop_zero, Nat.sub_zero]

theorem strictAsc_sorted (l : ForkList) (h : l.strictAsc = true) :
    l.keys.Sorted (· < ·) := by
  match l with
  | .nil => simp [ForkList.keys]
  | .cons k p c rest =>
    simp only [ForkList.strictAsc, Bool.and_eq_true, List.all_eq_true] at h
    simp only [ForkList.keys, List.sorted_cons]
    exact ⟨fun k2 h2 => by simpa using h.1 k2 h2, strictAsc_sorted rest h.2⟩

theorem foldl_setByte_length (ks : List Nat) :
    ∀ (bs : JBytes), (ks.foldl IndexBytes.setByte bs).length = bs.length := by
  induction ks with
  | nil => intro bs; rfl
  | cons k ks ih =>
    intro bs
    rw [List.foldl_cons, ih, setByte_length]

theorem serializeFeatures_ok (n : MantarayNode) (f : Nat)
    (h : n.serializeFeatures = .ok f) :
    f = serializeFeaturesByte n.core.hasEntry n.core.encEntry n.core.isEdge
      n.core.forkMetadataSegmentSize := by
  unfold MantarayNode.serializeFeatures at h
  by_cases hc : n.core.encEntry && !n.core.hasEntry
  · rw [if_pos hc] at h
    exact Except.noConfusion h
  · rw [if_neg hc] at h
    simp only [Except.ok.injEq] at h
    exact h.symm

/-- The well-formedness under which the v1.0 serialize/deserialize
roundtrip is exact: a 32-byte obfuscation key, a `forkMetadataSegmentSize`
within the 5 feature-byte bits, an `entry` present (with the length
dictated by `encEntry`) exactly when `hasEntry`, forks present only on an
edge node and then well-formed with strictly ascending keys, and node
metadata that the JSON codec round-trips (the library leaves this to
`JSON.parse`/`stringify`). -/
def wf10 (J : JsonCodec) (n : MantarayNode) : Prop :=
  n.core.obfuscationKey.length = 32 ∧
    n.core.forkMetadataSegmentSize ≤ 31 ∧
    (n.core.hasEntry = true →
      n.core.entry = some (n.core.entry.getD []) ∧
        (n.core.entry.getD []).length = (if n.core.encEntry = true then 64 else 32)) ∧
    (n.core.hasEntry = false → n.core.entry = none) ∧
    (n.core.isEdge = false → forkEntriesOf n.forks = []) ∧
    (n.core.isEdge = true → n.forksListD.strictAsc = true ∧
      forkWf n.core.encEntry n.forksListD = true) ∧
    (match n.core.nodeMetadata with
     | none => True
     | some m => J.enc m ≠ [] ∧ J.dec (trimEndBytes (J.enc m)) = some m)

theorem wf10_withNilForks (J : JsonCodec) (n : MantarayNode) (h : wf10 J n) :
    wf10 J (n.withForks (.defined .nil)) := by
  match n with
  | .mk c fks =>
    obtain ⟨h1, h2, h3, h4, h5, h6, h7⟩ := h
    simp only [wf10, MantarayNode.withForks, MantarayNode.core, MantarayNode.forks,
      MantarayNode.forksListD] at *
    exact ⟨h1, h2, h3, h4, fun _ => by simp [forkEntriesOf, ForkList.keyPfxPairs],
      fun _ => by simp [ForkList.strictAsc, forkWf], h7⟩

/-- Running v1.0 `deserialize` on an obfuscated buffer whose header was
built from a 32-byte key and a feature byte with segment size ≤ 31:
the XOR layer, version check and feature-byte parsing all resolve, leaving
the entry/fork/metadata phases. -/
theorem deserialize_header (J : JsonCodec) (self : MantarayNode) (obf tail : JBytes)
    (hE encE dE : Bool) (seg : Nat) (h32 : obf.length = 32) (hseg : seg ≤ 31) :
    MantarayNode.deserialize J self
      (encryptDecrypt obf (obf ++ versionHash10 ++
        [serializeFeaturesByte hE encE dE seg] ++ tail) obf.length) =
    (do
      let data := obf ++ versionHash10 ++ [serializeFeaturesByte hE encE dE seg] ++ tail
      let self := self.mapCore fun c =>
        { c with obfuscationKey := obf, hasEntry := hE, encEntry := encE,
                 isEdge := dE, forkMetadataSegmentSize := seg }
      let refBytesSize := if hE then (if encE then 64 else 32) else 0
      let self ← if hE then self.setEntry (some (jsSlice data 64 (64 + refBytesSize)))
        else .ok self
      let offset := 64 + refBytesSize
      let (self, offset) ←
        if dE then do
          let indexBytes := jsSlice data offset (offset + 32)
          if indexBytes.length ≠ 32 then .error .badIndexBytes
          else do
            let offset := offset + 32
            let forkSize := 32 + (if encE then 64 else 32) + seg * 32
            let (fl, offset) ← deserializeForksLoop J data encE forkSize
              (indexBytesForEachList indexBytes) offset .nil
            .ok (self.withForks (.defined fl), offset)
        else .ok (self, offset)
      let metadataBytes := jsSliceFrom data offset
      let self :=
        if metadataBytes.length > 0 then
          self.mapCore fun c => { c with nodeMetadata := deserializeMetadata J metadataBytes }
        else self
      .ok self : Except MErr MantarayNode) := by
  have hverlen : (versionHash10 : JBytes).length = 31 := by simp [versionHash10]
  have hPshape : obf ++ versionHash10 ++ [serializeFeaturesByte hE encE dE seg] ++ tail =
      obf ++ (versionHash10 ++ (serializeFeaturesByte hE encE dE seg :: tail)) := by
    simp [List.append_assoc]
  have hlen : (obf ++ versionHash10 ++ [serializeFeaturesByte hE encE dE seg] ++
      tail).length = 64 + tail.length := by
    simp only [List.length_append, List.length_cons, List.length_nil, h32, hverlen]
  simp only [MantarayNode.deserialize]
  rw [if_neg (show ¬ (encryptDecrypt obf (obf ++ versionHash10 ++
      [serializeFeaturesByte hE encE dE seg] ++ tail) obf.length).length < 64 from by
    rw [encryptDecrypt_length, hlen]
    omega)]
  rw [show jsSlice (encryptDecrypt obf (obf ++ versionHash10 ++
      [serializeFeaturesByte hE encE dE seg] ++ tail) obf.length) 0 32 = obf from by
    rw [jsSlice_take,
      encryptDecrypt_take obf _ obf.length 32 (by omega), hPshape]
    exact List.take_left' h32]
  rw [encryptDecrypt_involutive]
  rw [show jsSlice (obf ++ versionHash10 ++
      [serializeFeaturesByte hE encE dE seg] ++ tail) 32 63 = versionHash10 from by
    rw [hPshape]
    exact jsSlice_exact obf versionHash10 _ 32 63 h32.symm (by rw [hverlen])]
  rw [if_neg (show ¬ (versionHash10 ≠ versionHash10) from by simp)]
  rw [show (obf ++ versionHash10 ++ [serializeFeaturesByte hE encE dE seg] ++
      tail).getD 63 0 = serializeFeaturesByte hE encE dE seg from by
    rw [show obf ++ versionHash10 ++ [serializeFeaturesByte hE encE dE seg] ++ tail =
        (obf ++ versionHash10) ++ (serializeFeaturesByte hE encE dE seg :: tail) from by
      simp [List.append_assoc]]
    exact getD_at_append _ _ _ 63 (by
      simp only [List.length_append, h32, hverlen])]
  obtain ⟨hb1, hb2, hb3, hb4⟩ := featuresByte_roundtrip hE encE dE seg hseg
  rw [hb1, hb2, hb3, hb4]
  rw [if_neg (show ¬ seg > 31 from by omega)]

/-- v1.0 `deserialize` on a fresh receiver, against a buffer laid out
exactly as `serialize` emits it: every header field comes back, the entry
comes back when `hasEntry`, the fork records come back as the given
key/prefix pairs, and the metadata tail is parsed when non-empty. -/
theorem deserialize_of_layout (J : JsonCodec) (obf e ib fb mB : JBytes)
    (hE encE dE : Bool) (seg : Nat) (fpairs : List (Nat × JBytes))
    (h32 : obf.length = 32) (hseg : seg ≤ 31)
    (hElen : e.length = (if hE = true then (if encE = true then 64 else 32) else 0))
    (hnoEdge : dE = false → ib = [] ∧ fb = [])
    (hEdge : dE = true → ib.length = 32 ∧
      ∃ fl : ForkList, fl.keyPfxPairs = fpairs ∧
        ∀ (pre post : JBytes),
          deserializeForksLoop J (pre ++ (fb ++ post)) encE
            (32 + (if encE = true then 64 else 32) + seg * 32)
            (indexBytesForEachList ib) pre.length .nil = .ok (fl, pre.length + fb.length)) :
    ∃ m, MantarayNode.deserialize J MantarayNode.fresh
        (encryptDecrypt obf (obf ++ versionHash10 ++
          [serializeFeaturesByte hE encE dE seg] ++ (e ++ ib ++ fb ++ mB))
          obf.length) = .ok m ∧
      m.core.hasEntry = hE ∧ m.core.encEntry = encE ∧ m.core.isEdge = dE ∧
      m.core.forkMetadataSegmentSize = seg ∧
      m.core.entry = (if hE = true then some e else none) ∧
      m.core.obfuscationKey = obf ∧
      m.core.nodeMetadata = (if mB.length > 0 then deserializeMetadata J mB else none) ∧
      forkEntriesOf m.forks = (if dE = true then fpairs else []) := by
  have hverlen : (versionHash10 : JBytes).length = 31 := by simp [versionHash10]
  rw [deserialize_header J MantarayNode.fresh obf (e ++ ib ++ fb ++ mB) hE encE dE seg
    h32 hseg]
  cases dE with
  | false =>
    obtain ⟨hib0, hfb0⟩ := hnoEdge rfl
    subst hib0
    subst hfb0
    cases hE with
    | false =>
      simp only [Bool.false_eq_true, if_false] at hElen
      have he0 : e = [] := List.length_eq_zero.mp hElen
      subst he0
      simp only [List.nil_append, List.append_nil, Bool.false_eq_true, if_false,
        bindOk, Nat.add_zero]
      rw [show jsSliceFrom (obf ++ versionHash10 ++
          [serializeFeaturesByte false encE false seg] ++ mB) 64 = mB from
        jsSliceFrom_exact _ mB 64 (by simp [h32, versionHash10] <;> omega)]
      apply Exists.intro
      refine ⟨rfl, ?_⟩
      by_cases hmB : mB.length > 0 <;>
        simp [hmB, MantarayNode.fresh, MantarayNode.mapCore, MantarayNode.core,
          MantarayNode.forks, freshCore, forkEntriesOf]
    | true =>
      rw [if_pos rfl] at hElen
      simp only [List.nil_append, List.append_nil, if_true, eq_self_iff_true, bindOk]
      rw [show (if encE = true then 64 else 32) = e.length from hElen.symm]
      rw [show jsSlice (obf ++ versionHash10 ++
          [serializeFeaturesByte true encE false seg] ++ (e ++ mB)) 64 (64 + e.length) =
          e from jsSlice_exact _ e mB 64 _ (by simp [h32, versionHash10] <;> omega) rfl]
      have hae : assertReference e = .ok () := by
        unfold assertReference
        rw [if_pos (by rcases encE <;> simp at hElen <;> omega)]
      simp only [MantarayNode.setEntry, hae, bindOk]
      simp only [Bool.false_eq_true, if_false, bindOk]
      rw [show obf ++ versionHash10 ++ [serializeFeaturesByte true encE false seg] ++
          (e ++ mB) = (obf ++ versionHash10 ++
            [serializeFeaturesByte true encE false seg] ++ e) ++ mB from by
        simp [List.append_assoc]]
      rw [show jsSliceFrom ((obf ++ versionHash10 ++
          [serializeFeaturesByte true encE false seg] ++ e) ++ mB) (64 + e.length) =
          mB from jsSliceFrom_exact _ mB _ (by simp [h32, versionHash10] <;> omega)]
      apply Exists.intro
      refine ⟨rfl, ?_⟩
      rcases encE <;> simp only [Bool.false_eq_true, if_false, if_true,
          eq_self_iff_true] at hElen <;>
        by_cases hmB : mB.length > 0 <;>
        simp [hmB, hElen, MantarayNode.fresh, MantarayNode.mapCore, MantarayNode.core,
          MantarayNode.forks, MantarayNode.makeDirty, freshCore, forkEntriesOf]
  | true =>
    obtain ⟨hib32, fl, hflpairs, hloop⟩ := hEdge rfl
    cases hE with
    | false =>
      simp only [Bool.false_eq_true, if_false] at hElen
      have he0 : e = [] := List.length_eq_zero.mp hElen
      subst he0
      simp only [List.nil_append, List.append_nil, Bool.false_eq_true, if_false,
        if_true, eq_self_iff_true, bindOk, Nat.add_zero]
      rw [show obf ++ versionHash10 ++
          [serializeFeaturesByte false encE true seg] ++ (ib ++ fb ++ mB) =
          (obf ++ versionHash10 ++ [serializeFeaturesByte false encE true seg]) ++
            (ib ++ (fb ++ mB)) from by simp [List.append_assoc]]
      rw [show jsSlice ((obf ++ versionHash10 ++
          [serializeFeaturesByte false encE true seg]) ++ (ib ++ (fb ++ mB))) 64
          (64 + 32) = ib from jsSlice_exact _ ib (fb ++ mB) 64 (64 + 32)
          (by simp [h32, versionHash10] <;> omega) (by rw [hib32])]
      rw [if_neg (show ¬ (ib.length ≠ 32) from by simp [hib32])]
      rw [show (obf ++ versionHash10 ++ [serializeFeaturesByte false encE true seg]) ++
          (ib ++ (fb ++ mB)) = ((obf ++ versionHash10 ++
            [serializeFeaturesByte false encE true seg]) ++ ib) ++ (fb ++ mB) from by
        simp [List.append_assoc]]
      rw [show (64 + 32 : Nat) = ((obf ++ versionHash10 ++
          [serializeFeaturesByte false encE true seg]) ++ ib).length from by
        simp [h32, versionHash10, hib32]]
      rw [hloop _ mB, bindOk]
      simp only []
      rw [show ((obf ++ versionHash10 ++
          [serializeFeaturesByte false encE true seg]) ++ ib).length + fb.length =
          (((obf ++ versionHash10 ++ [serializeFeaturesByte false encE true seg]) ++
            ib) ++ fb).length from (List.length_append _ _).symm]
      rw [show ((obf ++ versionHash10 ++
          [serializeFeaturesByte false encE true seg]) ++ ib) ++ (fb ++ mB) =
          (((obf ++ versionHash10 ++ [serializeFeaturesByte false encE true seg]) ++
            ib) ++ fb) ++ mB from by simp [List.append_assoc]]
      rw [jsSliceFrom_exact _ mB _ rfl]
      apply Exists.intro
      refine ⟨rfl, ?_⟩
      by_cases hmB : mB.length > 0 <;>
        simp [hmB, hflpairs, MantarayNode.fresh, MantarayNode.mapCore, MantarayNode.core,
          MantarayNode.forks, MantarayNode.withForks, freshCore, forkEntriesOf]
    | true =>
      rw [if_pos rfl] at hElen
      simp only [List.nil_append, List.append_nil, if_true, eq_self_iff_true, bindOk]
      rw [show (if encE = true then 64 else 32) = e.length from hElen.symm]
      rw [show obf ++ versionHash10 ++
          [serializeFeaturesByte true encE true seg] ++ (e ++ ib ++ fb ++ mB) =
          (obf ++ versionHash10 ++ [serializeFeaturesByte true encE true seg]) ++
            (e ++ (ib ++ (fb ++ mB))) from by simp [List.append_assoc]]
      rw [show jsSlice ((obf ++ versionHash10 ++
          [serializeFeaturesByte true encE true seg]) ++ (e ++ (ib ++ (fb ++ mB)))) 64
          (64 + e.length) = e from jsSlice_exact _ e _ 64 _
          (by simp [h32, versionHash10] <;> omega) rfl]
      have hae : assertReference e = .ok () := by
        unfold assertReference
        rw [if_pos (by rcases encE <;> simp at hElen <;> omega)]
      simp only [MantarayNode.setEntry, hae, bindOk]
      simp only [show (if encE = true then 64 else 32) = e.length from hElen.symm] at hloop
      rw [show (obf ++ versionHash10 ++ [serializeFeaturesByte true encE true seg]) ++
          (e ++ (ib ++ (fb ++ mB))) = ((obf ++ versionHash10 ++
            [serializeFeaturesByte true encE true seg]) ++ e) ++ (ib ++ (fb ++ mB))
          from by simp [List.append_assoc]]
      rw [show jsSlice (((obf ++ versionHash10 ++
          [serializeFeaturesByte true encE true seg]) ++ e) ++ (ib ++ (fb ++ mB)))
          (64 + e.length) (64 + e.length + 32) = ib from jsSlice_exact _ ib (fb ++ mB)
          (64 + e.length) (64 + e.length + 32)
          (by simp [h32, versionHash10] <;> omega) (by rw [hib32])]
      rw [if_neg (show ¬ (ib.length ≠ 32) from by simp [hib32])]
      rw [show ((obf ++ versionHash10 ++ [serializeFeaturesByte true encE true seg]) ++
          e) ++ (ib ++ (fb ++ mB)) = (((obf ++ versionHash10 ++
            [serializeFeaturesByte true encE true seg]) ++ e) ++ ib) ++ (fb ++ mB)
          from by simp [List.append_assoc]]
      rw [show (64 + e.length + 32 : Nat) = ((((obf ++ versionHash10 ++
          [serializeFeaturesByte true encE true seg]) ++ e) ++ ib)).length from by
        simp [h32, versionHash10, hib32]
        omega]
      rw [hloop _ mB, bindOk]
      simp only []
      rw [show ((((obf ++ versionHash10 ++
          [serializeFeaturesByte true encE true seg]) ++ e) ++ ib)).length +
          fb.length = (((((obf ++ versionHash10 ++
            [serializeFeaturesByte true encE true seg]) ++ e) ++ ib)) ++ fb).length
          from (List.length_append _ _).symm]
      rw [show (((obf ++ versionHash10 ++ [serializeFeaturesByte true encE true seg]) ++
          e) ++ ib) ++ (fb ++ mB) = ((((obf ++ versionHash10 ++
            [serializeFeaturesByte true encE true seg]) ++ e) ++ ib) ++ fb) ++ mB
          from by simp [List.append_assoc]]
      rw [jsSliceFrom_exact _ mB _ rfl]
      apply Exists.intro
      refine ⟨rfl, ?_⟩
      rcases encE <;> simp only [Bool.false_eq_true, if_false, if_true,
          eq_self_iff_true] at hElen <;>
        by_cases hmB : mB.length > 0 <;>
        simp [hmB, hElen, hflpairs, MantarayNode.fresh, MantarayNode.mapCore,
          MantarayNode.core, MantarayNode.forks, MantarayNode.withForks,
          MantarayNode.makeDirty, freshCore, forkEntriesOf]

/-- The serialize/deserialize roundtrip for a node with a defined fork
map, with the well-formedness conditions spelled out on the core. -/
theorem serializeBody_roundtrip (J : JsonCodec) (c : NodeCore) (l : ForkList)
    (h32 : c.obfuscationKey.length = 32) (hseg31 : c.forkMetadataSegmentSize ≤ 31)
    (hent : c.hasEntry = true → c.entry = some (c.entry.getD []) ∧
      (c.entry.getD []).length = (if c.encEntry = true then 64 else 32))
    (hnoent : c.hasEntry = false → c.entry = none)
    (hforks0 : c.isEdge = false → l.keyPfxPairs = [])
    (hasc : c.isEdge = true → l.strictAsc = true)
    (hfwf : c.isEdge = true → forkWf c.encEntry l = true)
    (hmeta : ∀ m0, c.nodeMetadata = some m0 →
      J.enc m0 ≠ [] ∧ J.dec (trimEndBytes (J.enc m0)) = some m0)
    (n2 : MantarayNode) (bytes : JBytes)
    (h : MantarayNode.serializeBody J (.mk c (.defined l)) = .ok (n2, bytes)) :
    ∃ m, MantarayNode.deserialize J MantarayNode.fresh bytes = .ok m ∧
      shallowStructEq n2 m := by
  have hElen : (c.entry.getD []).length =
      (if c.hasEntry = true then (if c.encEntry = true then 64 else 32) else 0) := by
    cases hhe : c.hasEntry with
    | true => rw [if_pos rfl]; exact (hent hhe).2
    | false =>
      rw [if_neg (by simp)]
      rw [hnoent hhe]
      rfl
  simp only [MantarayNode.serializeBody, MantarayNode.core, MantarayNode.forks,
    MantarayNode.forksListD, MantarayNode.mapCore] at h
  cases hE : c.isEdge with
  | false =>
    simp only [hE, Bool.false_eq_true, if_false, bindOk] at h
    cases hsf : MantarayNode.serializeFeatures (.mk c (.defined l)) with
    | error er =>
      simp only [MantarayNode.serializeFeatures, MantarayNode.core] at hsf h
      rw [hsf, bindErr] at h
      exact Except.noConfusion h
    | ok f =>
      have hfv := serializeFeatures_ok _ _ hsf
      simp only [MantarayNode.core] at hfv
      rw [hE] at hfv
      simp only [MantarayNode.serializeFeatures, MantarayNode.core] at hsf h
      rw [hsf, bindOk] at h
      simp only [Except.ok.injEq, Prod.mk.injEq] at h
      obtain ⟨hn2, hbytes⟩ := h
      subst hn2
      cases hnm : c.nodeMetadata with
      | none =>
        rw [hnm] at hbytes
        simp only [] at hbytes
        obtain ⟨m, hdes, f1, f2, f3, f4, f5, f6, f7, f8⟩ :=
          deserialize_of_layout J c.obfuscationKey (c.entry.getD []) [] [] []
            c.hasEntry c.encEntry false c.forkMetadataSegmentSize []
            h32 hseg31 hElen (fun _ => ⟨rfl, rfl⟩)
            (fun hff => absurd hff (by simp))
        refine ⟨m, ?_, ?_⟩
        · rw [← hbytes, hfv, show c.obfuscationKey ++ versionHash10 ++
              [serializeFeaturesByte c.hasEntry c.encEntry false
                c.forkMetadataSegmentSize] ++ c.entry.getD [] ++ [] ++ [] ++ [] =
              c.obfuscationKey ++ versionHash10 ++
              [serializeFeaturesByte c.hasEntry c.encEntry false
                c.forkMetadataSegmentSize] ++ (c.entry.getD [] ++ [] ++ [] ++ []) from by
            simp [List.append_assoc]]
          exact hdes
        · refine ⟨f1.symm, f2.symm, ?_, f4.symm, ?_, f6.symm, ?_, ?_⟩
          · show c.isEdge = m.core.isEdge
            rw [hE, f3]
          · show c.entry = m.core.entry
            rw [f5]
            cases hhe : c.hasEntry with
            | true => rw [if_pos rfl]; exact (hent hhe).1
            | false => rw [if_neg (by simp)]; exact hnoent hhe
          · show c.nodeMetadata = m.core.nodeMetadata
            rw [f7, hnm, if_neg (by simp)]
          · show l.keyPfxPairs = forkEntriesOf m.forks
            rw [f8, if_neg (by simp)]
            exact hforks0 hE
      | some m0 =>
        rw [hnm] at hbytes
        simp only [] at hbytes
        obtain ⟨hne, hdec⟩ := hmeta m0 hnm
        obtain ⟨m, hdes, f1, f2, f3, f4, f5, f6, f7, f8⟩ :=
          deserialize_of_layout J c.obfuscationKey (c.entry.getD []) [] []
            (serializeMedata J m0)
            c.hasEntry c.encEntry false c.forkMetadataSegmentSize []
            h32 hseg31 hElen (fun _ => ⟨rfl, rfl⟩)
            (fun hff => absurd hff (by simp))
        refine ⟨m, ?_, ?_⟩
        · rw [← hbytes, hfv, show c.obfuscationKey ++ versionHash10 ++
              [serializeFeaturesByte c.hasEntry c.encEntry false
                c.forkMetadataSegmentSize] ++ c.entry.getD [] ++ [] ++ [] ++
                serializeMedata J m0 =
              c.obfuscationKey ++ versionHash10 ++
              [serializeFeaturesByte c.hasEntry c.encEntry false
                c.forkMetadataSegmentSize] ++ (c.entry.getD [] ++ [] ++ [] ++
                serializeMedata J m0) from by
            simp [List.append_assoc]]
          exact hdes
        · refine ⟨f1.symm, f2.symm, ?_, f4.symm, ?_, f6.symm, ?_, ?_⟩
          · show c.isEdge = m.core.isEdge
            rw [hE, f3]
          · show c.entry = m.core.entry
            rw [f5]
            cases hhe : c.hasEntry with
            | true => rw [if_pos rfl]; exact (hent hhe).1
            | false => rw [if_neg (by simp)]; exact hnoent hhe
          · show c.nodeMetadata = m.core.nodeMetadata
            rw [f7, hnm, if_pos (by
              simp only [serializeMedata]
              exact List.length_pos.mpr hne)]
            simp only [deserializeMetadata, serializeMedata]
            exact hdec.symm
          · show l.keyPfxPairs = forkEntriesOf m.forks
            rw [f8, if_neg (by simp)]
            exact hforks0 hE
  | true =>
    rw [if_pos hE] at h
    cases hig : ForkList.indexAndGrow J l (List.replicate 32 0)
        c.forkMetadataSegmentSize with
    | error er =>
      rw [hig, bindErr] at h
      exact Except.noConfusion h
    | ok pr =>
      obtain ⟨bitmap, seg2⟩ := pr
      rw [hig, bindOk] at h
      simp only [] at h
      obtain ⟨hbm, hsegle, hk255⟩ := indexAndGrow_spec J l _ _ _ _ hig
      have hseg2 : seg2 ≤ 31 := hsegle hseg31
      have hkeys : indexBytesForEachList bitmap = l.keys := by
        rw [hbm]
        exact indexBytesForEachList_foldl l.keys (strictAsc_sorted l (hasc hE)) hk255
      rw [hkeys] at h
      cases hsl : serializeForksLoop J l seg2 l.keys with
      | error er =>
        rw [hsl, bindErr] at h
        exact Except.noConfusion h
      | ok fb =>
        simp only [hsl, bindOk] at h
        cases hsf : MantarayNode.serializeFeatures
            (.mk { c with forkMetadataSegmentSize := seg2 } (.defined l)) with
        | error er =>
          simp only [MantarayNode.serializeFeatures, MantarayNode.core] at hsf h
          rw [hsf, bindErr] at h
          exact Except.noConfusion h
        | ok f =>
          have hfv := serializeFeatures_ok _ _ hsf
          simp only [MantarayNode.core] at hfv
          rw [hE] at hfv
          simp only [MantarayNode.serializeFeatures, MantarayNode.core] at hsf h
          rw [hsf, bindOk] at h
          simp only [Except.ok.injEq, Prod.mk.injEq] at h
          obtain ⟨hn2, hbytes⟩ := h
          subst hn2
          have hib32 : bitmap.length = 32 := by
            rw [hbm, foldl_setByte_length, List.length_replicate]
          obtain ⟨hfblen, fl, hflp, hfloop⟩ :=
            forksLoop_roundtrip J l seg2 c.encEntry l (hasc hE) (fun x hx => hx)
              (hasc hE) (hfwf hE) fb hsl .nil
              (by intro k0 h0 k2 _; simp [ForkList.keys] at h0)
          rw [show (ForkList.nil.keyPfxPairs ++ l.keyPfxPairs) = l.keyPfxPairs from by
            simp [ForkList.keyPfxPairs]] at hflp
          cases hnm : c.nodeMetadata with
          | none =>
            rw [hnm] at hbytes
            simp only [] at hbytes
            obtain ⟨m, hdes, f1, f2, f3, f4, f5, f6, f7, f8⟩ :=
              deserialize_of_layout J c.obfuscationKey (c.entry.getD []) bitmap fb []
                c.hasEntry c.encEntry true seg2 l.keyPfxPairs
                h32 hseg2 hElen (fun hff => absurd hff (by simp))
                (fun _ => ⟨hib32, fl, hflp, by
                  intro pre post
                  rw [hkeys]
                  exact hfloop pre post⟩)
            refine ⟨m, ?_, ?_⟩
            · rw [← hbytes, hfv, show c.obfuscationKey ++ versionHash10 ++
                  [serializeFeaturesByte c.hasEntry c.encEntry true seg2] ++
                  c.entry.getD [] ++ bitmap ++ fb ++ [] =
                  c.obfuscationKey ++ versionHash10 ++
                  [serializeFeaturesByte c.hasEntry c.encEntry true seg2] ++
                  (c.entry.getD [] ++ bitmap ++ fb ++ []) from by
                simp [List.append_assoc]]
              exact hdes
            · refine ⟨f1.symm, f2.symm, ?_, f4.symm, ?_, f6.symm, ?_, ?_⟩
              · show c.isEdge = m.core.isEdge
                rw [hE, f3]
              · show c.entry = m.core.entry
                rw [f5]
                cases hhe : c.hasEntry with
                | true => rw [if_pos rfl]; exact (hent hhe).1
                | false => rw [if_neg (by simp)]; exact hnoent hhe
              · show (none : Option MetaMap) = m.core.nodeMetadata
                rw [f7, if_neg (by simp)]
              · show l.keyPfxPairs = forkEntriesOf m.forks
                rw [f8, if_pos rfl]
          | some m0 =>
            rw [hnm] at hbytes
            simp only [] at hbytes
            obtain ⟨hne, hdec⟩ := hmeta m0 hnm
            obtain ⟨m, hdes, f1, f2, f3, f4, f5, f6, f7, f8⟩ :=
              deserialize_of_layout J c.obfuscationKey (c.entry.getD []) bitmap fb
                (serializeMedata J m0)
                c.hasEntry c.encEntry true seg2 l.keyPfxPairs
                h32 hseg2 hElen (fun hff => absurd hff (by simp))
                (fun _ => ⟨hib32, fl, hflp, by
                  intro pre post
                  rw [hkeys]
                  exact hfloop pre post⟩)
            refine ⟨m, ?_, ?_⟩
            · rw [← hbytes, hfv, show c.obfuscationKey ++ versionHash10 ++
                  [serializeFeaturesByte c.hasEntry c.encEntry true seg2] ++
                  c.entry.getD [] ++ bitmap ++ fb ++ serializeMedata J m0 =
                  c.obfuscationKey ++ versionHash10 ++
                  [serializeFeaturesByte c.hasEntry c.encEntry true seg2] ++
                  (c.entry.getD [] ++ bitmap ++ fb ++ serializeMedata J m0) from by
                simp [List.append_assoc]]
              exact hdes
            · refine ⟨f1.symm, f2.symm, ?_, f4.symm, ?_, f6.symm, ?_, ?_⟩
              · show c.isEdge = m.core.isEdge
                rw [hE, f3]
              · show c.entry = m.core.entry
                rw [f5]
                cases hhe : c.hasEntry with
                | true => rw [if_pos rfl]; exact (hent hhe).1
                | false => rw [if_neg (by simp)]; exact hnoent hhe
              · show some m0 = m.core.nodeMetadata
                rw [f7, if_pos (by
                  simp only [serializeMedata]
                  exact List.length_pos.mpr hne)]
                simp only [deserializeMetadata, serializeMedata]
                exact hdec.symm
              · show l.keyPfxPairs = forkEntriesOf m.forks
                rw [f8, if_pos rfl]

theorem wf10_meta (J : JsonCodec) (nm : Option MetaMap)
    (h : match nm with
      | none => True
      | some m => J.enc m ≠ [] ∧ J.dec (trimEndBytes (J.enc m)) = some m) :
    ∀ m0, nm = some m0 →
      J.enc m0 ≠ [] ∧ J.dec (trimEndBytes (J.enc m0)) = some m0 := by
  intro m0 hm0
  subst hm0
  exact h

/-- **C1 (amended).**  Part A: for every v1.0 node satisfying `wf10` (the
entry/flag/fork/metadata consistency that every node built by the public
API without stale-entry states enjoys), a successful `serialize` produces
bytes from which `deserialize` into a fresh node succeeds and returns a
node structurally equal — same `hasEntry`/`encEntry`/`isEdge` flags, same
(auto-grown) `forkMetadataSegmentSize`, byte-equal entry and obfuscation
key, equal node metadata, and the same prefix bytes under every fork
key — to the node `serialize` left behind.  Part B: a successful v0.2
`deserialize` into a fresh node sets the edge bit of the node type
exactly when the serialized fork index bitmap is non-zero. -/
theorem c1_roundtrip_structural_eq (J : JsonCodec) (n n2 : MantarayNode)
    (bytes : JBytes) (hwf : wf10 J n)
    (hser : MantarayNode.serialize J n = .ok (n2, bytes)) :
    (∃ m, MantarayNode.deserialize J MantarayNode.fresh bytes = .ok m ∧
        shallowStructEq n2 m) ∧
      ∀ (data : JBytes) (m2 : Node02), Node02.deserialize J Node02.fresh data = .ok m2 →
        v02EdgeBit m2 = decide (v02IndexBitmap data ≠ List.replicate 32 0) := by
  refine ⟨?_, fun data m2 h2 => c1_v02_edge_iff_bitmap J data m2 h2⟩
  match n, hwf, hser with
  | .mk c fks, hwf, hser =>
    obtain ⟨h32, hseg, hent, hnoent, hf0, hf1, hmeta⟩ := hwf
    have hmeta2 := wf10_meta J c.nodeMetadata hmeta
    match fks, hser, hf0, hf1 with
    | .undef, hser, hf0, hf1 =>
      simp only [MantarayNode.serialize, MantarayNode.forks, MantarayNode.core] at hser
      cases hce : c.entry with
      | none =>
        rw [hce] at hser
        simp only [] at hser
        exact Except.noConfusion hser
      | some e0 =>
        rw [hce] at hser
        simp only [bindOk, MantarayNode.withForks] at hser
        exact serializeBody_roundtrip J c .nil h32 hseg hent hnoent
          (fun _ => rfl) (fun _ => rfl) (fun _ => rfl) hmeta2 n2 bytes hser
    | .defined l, hser, hf0, hf1 =>
      simp only [MantarayNode.serialize, MantarayNode.forks, MantarayNode.core] at hser
      simp only [bindOk] at hser
      exact serializeBody_roundtrip J c l h32 hseg hent hnoent
        (fun hE => hf0 hE) (fun hE => (hf1 hE).1) (fun hE => (hf1 hE).2)
        hmeta2 n2 bytes hser

/-- The child fork of the C1 witness node: clean, with a 32-byte
content address. -/
def c1WitChild : MantarayNode :=
  .mk { freshCore with contentAddress := some (List.replicate 32 5) } (.undef)

/-- The C1 witness node: an edge node with one fork under key 7. -/
def c1WitNode : MantarayNode :=
  .mk { freshCore with isEdge := true } (.defined (.cons 7 [7] c1WitChild .nil))

/-- The serialization of `c1WitNode`: header with feature byte 4 (edge),
fork index bitmap with bit 7, one 64-byte fork record. -/
def c1WitBytes : JBytes :=
  List.replicate 32 0 ++ versionHash10 ++ [4] ++ (128 :: List.replicate 31 0) ++
    (1 :: (7 :: List.replicate 30 0 ++ List.replicate 32 5))

/-- Witness for C1 at a concrete well-formed edge node. -/
theorem c1_roundtrip_structural_eq_witness :
    wf10 J0 c1WitNode ∧
      MantarayNode.serialize J0 c1WitNode = .ok (c1WitNode, c1WitBytes) ∧
      ((∃ m, MantarayNode.deserialize J0 MantarayNode.fresh c1WitBytes = .ok m ∧
          shallowStructEq c1WitNode m) ∧
        ∀ (data : JBytes) (m2 : Node02),
          Node02.deserialize J0 Node02.fresh data = .ok m2 →
          v02EdgeBit m2 = decide (v02IndexBitmap data ≠ List.replicate 32 0)) := by
  have hwf : wf10 J0 c1WitNode := by
    refine ⟨rfl, by decide, ?_, fun _ => rfl, ?_, fun _ => ⟨rfl, rfl⟩, trivial⟩
    · intro h
      exact absurd h (by decide)
    · intro h
      exact absurd h (by decide)
  have hser : MantarayNode.serialize J0 c1WitNode = .ok (c1WitNode, c1WitBytes) := by
    rfl
  exact ⟨hwf, hser, c1_roundtrip_structural_eq J0 c1WitNode c1WitNode c1WitBytes hwf hser⟩

/-- A node whose 32-byte entry was set and then cleared: `hasEntry` is
false but the stale entry bytes are still stored. -/
def c1CexStart : MantarayNode :=
  .mk { freshCore with entry := some (List.replicate 32 7) } (.undef)

/-- `c1CexStart` as mutated by `serialize` (fork map defined). -/
def c1CexAfter : MantarayNode :=
  .mk { freshCore with entry := some (List.replicate 32 7) } (.defined .nil)

/-- The serialization of `c1CexStart`: header plus the stale entry bytes,
with a zero feature byte. -/
def c1CexBytes : JBytes :=
  List.replicate 32 0 ++ versionHash10 ++ [0] ++ List.replicate 32 7

/-- **C1 counterexample.**  `c1CexStart` is built by the public API
(fresh node; `entry := r32`; `entry := undefined`), has no descendant
forks at all, and serializes fine — but deserializing the result yields a
fresh node with *no* entry, while the serialized node still stores the
stale 32-byte entry: the entries are not byte-equal, so the claimed
structural equality fails. -/
theorem c1_stale_entry_roundtrip_cex :
    (applyEntryOps MantarayNode.fresh [some (List.replicate 32 7), none] =
        .ok c1CexStart) ∧
      MantarayNode.serialize J0 c1CexStart = .ok (c1CexAfter, c1CexBytes) ∧
      MantarayNode.deserialize J0 MantarayNode.fresh c1CexBytes =
        .ok MantarayNode.fresh ∧
      ¬ shallowStructEq MantarayNode.fresh c1CexAfter :=
  ⟨rfl, rfl, rfl, by decide⟩

/-- A clean node with a 32-byte entry, for the C10 witness. -/
def c10WitCore : NodeCore :=
  { freshCore with
      hasEntry := true,
      entry := some (List.replicate 32 7),
      contentAddress := some (List.replicate 32 5) }

/-- Witness for C10 (amended) at a concrete node. -/
theorem c10_clear_entry_keeps_stale_bytes_witness :
    (MantarayNode.mk c10WitCore .undef).setEntry none =
        .ok (.mk { c10WitCore with hasEntry := false } .undef) ∧
      ({ c10WitCore with hasEntry := false } : NodeCore).entry =
        some (List.replicate 32 7) ∧
      ({ c10WitCore with hasEntry := false } : NodeCore).encEntry = false ∧
      ({ c10WitCore with hasEntry := false } : NodeCore).contentAddress =
        c10WitCore.contentAddress ∧
      ∃ bytes, MantarayNode.serialize J0 (.mk { c10WitCore with hasEntry := false } .undef) =
          .ok (.mk { c10WitCore with hasEntry := false } (.defined .nil), bytes) ∧
        jsSlice bytes 64 96 = List.replicate 32 7 ∧
        bytes.getD 63 0 % 2 = 0 ∧ bytes.length = 96 :=
  c10_clear_entry_keeps_stale_bytes J0 c10WitCore (List.replicate 32 7)
    rfl rfl rfl rfl rfl rfl rfl

/-- The node reached by `entry := (32 bytes); entry := undefined` from fresh. -/
def c5WitNode : MantarayNode :=
  .mk { freshCore with entry := some (List.replicate 32 3) } (.undef)

/-- Witness for C5 at a concrete assignment sequence. -/
theorem c5_entry_invariant_witness :
    (c5WitNode.core.encEntry = true → c5WitNode.core.hasEntry = true) ∧
      (((c5WitNode.core.entry.getD []).length = 64) ↔ c5WitNode.core.encEntry = true) :=
  c5_entry_invariant [some (List.replicate 32 3), none] c5WitNode
    (by decide) (by decide) rfl

end Mantaray
